import Mathlib

/-!
# pegbox: the file-drop widget of the front end

A shallow embedding of `frontend/src/components/dropzone.js`.

The component `UCFDropzone` installs, for every dropped file, a `FileReader`
with three handlers (`onabort`, `onerror`, `onload`) and starts a text read.
The only observable effects of the handlers are entries appended to the
browser console and, for `onload`, a `SyntaxError` raised by `JSON.parse`.

The platform pieces the handlers call (`console.log`, `JSON.parse`, the
dispatch of `FileReader` events) are modelled explicitly:

* a JavaScript string is the list of its UTF-16 code units;
* `JSON.parse` is a recursive-descent reader of the ECMA-404 grammar; a number
  is kept as the literal that denotes it (its rounding to a double is not
  modelled), an object as its properties in creation order (the place integer
  keys take in an enumeration is not modelled), and the limits of an engine
  (nesting depth, memory) are left out;
* the grammar of JSON texts is stated a second time, as tables and derivation
  rules, and `JSON.parse` is proved to accept exactly the texts of that grammar
  with the values they denote (`JSON.parse_eq_ok_iff`);
* the console is the list of logged values, oldest first;
* the event loop runs one handler at a time to completion, and reports an
  exception that leaves a handler without stopping.
-/

namespace Pegbox

/-! ## JavaScript values -/

/-- A JavaScript string, as the list of its UTF-16 code units. -/
abbrev JsString := List Nat

/-- The UTF-16 code units of one Unicode scalar value. -/
def utf16Char (c : Char) : List Nat :=
  if c.toNat < 0x10000 then [c.toNat]
  else [0xD800 + (c.toNat - 0x10000) / 0x400, 0xDC00 + (c.toNat - 0x10000) % 0x400]

/-- The UTF-16 code units of a list of scalar values. -/
def utf16Chars : List Char → JsString
  | [] => []
  | c :: cs => utf16Char c ++ utf16Chars cs

/-- The JavaScript string holding a well-formed text. -/
def utf16 (s : String) : JsString := utf16Chars s.data

/-- The values `JSON.parse` can return, which are also the values the handlers
pass to `console.log`. -/
inductive JsValue where
  | null
  | bool (b : Bool)
  | num (literal : List Char)
  | str (s : JsString)
  | arr (items : List JsValue)
  | obj (props : List (JsString × JsValue))

/-- The exceptions a handler can raise. -/
inductive JsError where
  | SyntaxError
  deriving DecidableEq, Repr

/-- Own property lookup, `o[key]`, on the property list of an object. -/
def getProp (key : JsString) : List (JsString × JsValue) → Option JsValue
  | [] => none
  | (k, v) :: rest => if k = key then some v else getProp key rest

/-- Definition of a data property (`CreateDataProperty`): an existing key keeps
its place and takes the new value, a new key goes last. -/
def setProp (key : JsString) (v : JsValue) :
    List (JsString × JsValue) → List (JsString × JsValue)
  | [] => [(key, v)]
  | (k, w) :: rest => if k = key then (k, v) :: rest else (k, w) :: setProp key v rest

/-! ## `JSON.parse` -/

/-- JSON white space: tab, line feed, carriage return, space. -/
def isWs (c : Char) : Bool := c = ' ' || c = '\t' || c = '\n' || c = '\r'

/-- Drops leading white space. -/
def skipWs : List Char → List Char
  | [] => []
  | c :: cs => if isWs c then skipWs cs else c :: cs

/-- Value of a hexadecimal digit. -/
def hexDigit (c : Char) : Option Nat :=
  if '0' ≤ c ∧ c ≤ '9' then some (c.toNat - '0'.toNat)
  else if 'a' ≤ c ∧ c ≤ 'f' then some (c.toNat - 'a'.toNat + 10)
  else if 'A' ≤ c ∧ c ≤ 'F' then some (c.toNat - 'A'.toNat + 10)
  else none

/-- Code unit denoted by the four digits of a `\u` escape. -/
def hex4 (a b c d : Char) : Option Nat :=
  match hexDigit a, hexDigit b, hexDigit c, hexDigit d with
  | some w, some x, some y, some z => some (((w * 16 + x) * 16 + y) * 16 + z)
  | _, _, _, _ => none

/-- Code unit denoted by a one-character escape. -/
def escapeChar (c : Char) : Option Nat :=
  if c = '"' then some 0x22
  else if c = '\\' then some 0x5C
  else if c = '/' then some 0x2F
  else if c = 'b' then some 0x08
  else if c = 'f' then some 0x0C
  else if c = 'n' then some 0x0A
  else if c = 'r' then some 0x0D
  else if c = 't' then some 0x09
  else none

/-- Reads the rest of a string literal, the opening quote already consumed:
the code units read and the text after the closing quote. -/
def parseString : List Char → JsString → Option (JsString × List Char)
  | [], _ => none
  | c :: cs, acc =>
    if c = '"' then some (acc, cs)
    else if c = '\\' then
      match cs with
      | [] => none
      | e :: cs1 =>
        if e = 'u' then
          match cs1 with
          | h1 :: h2 :: h3 :: h4 :: cs2 =>
            match hex4 h1 h2 h3 h4 with
            | some u => parseString cs2 (acc ++ [u])
            | none => none
          | _ => none
        else
          match escapeChar e with
          | some u => parseString cs1 (acc ++ [u])
          | none => none
    else if c.toNat < 0x20 then none
    else parseString cs (acc ++ utf16Char c)

/-- Splits off the leading decimal digits. -/
def takeDigits : List Char → List Char × List Char
  | [] => ([], [])
  | c :: cs =>
    if c.isDigit then ((takeDigits cs).1.cons c, (takeDigits cs).2)
    else ([], c :: cs)

/-- Integer part of a number: `0`, or a non-zero digit followed by digits. -/
def parseInt : List Char → Option (List Char × List Char)
  | [] => none
  | c :: cs =>
    if c = '0' then some (['0'], cs)
    else if c.isDigit then some (c :: (takeDigits cs).1, (takeDigits cs).2)
    else none

/-- Optional fraction: a dot followed by at least one digit. -/
def parseFrac : List Char → Option (List Char × List Char)
  | [] => some ([], [])
  | c :: cs =>
    if c = '.' then
      (if (takeDigits cs).1 = [] then none
       else some (c :: (takeDigits cs).1, (takeDigits cs).2))
    else some ([], c :: cs)

/-- Digits of an exponent, after the optional sign. -/
def parseExpDigits (pre : List Char) (cs : List Char) : Option (List Char × List Char) :=
  if (takeDigits cs).1 = [] then none
  else some (pre ++ (takeDigits cs).1, (takeDigits cs).2)

/-- Optional exponent: `e` or `E`, an optional sign, at least one digit. -/
def parseExp : List Char → Option (List Char × List Char)
  | [] => some ([], [])
  | c :: cs =>
    if c = 'e' ∨ c = 'E' then
      match cs with
      | [] => none
      | s :: cs1 =>
        if s = '+' ∨ s = '-' then parseExpDigits [c, s] cs1
        else parseExpDigits [c] (s :: cs1)
    else some ([], c :: cs)

/-- Reads a number, the optional minus sign already consumed into `sign`. -/
def parseNumber (sign : List Char) (cs : List Char) : Option (List Char × List Char) :=
  match parseInt cs with
  | none => none
  | some (i, r1) =>
    match parseFrac r1 with
    | none => none
    | some (f, r2) =>
      match parseExp r2 with
      | none => none
      | some (e, r3) => some (sign ++ i ++ f ++ e, r3)

/-- What the reader is in the middle of. -/
inductive Mode where
  | value
  | elements (acc : List JsValue)
  | members (acc : List (JsString × JsValue))

/-- Why a read stops without a value. -/
inductive Stop where
  | malformed
  | fuel
  deriving DecidableEq, Repr

/-- Result of reading a prefix of the text. -/
abbrev Step := Except Stop (JsValue × List Char)

/-- Reads a scalar value whose first character is `c`. -/
def parseScalar (c : Char) (cs : List Char) : Step :=
  if c = '"' then
    match parseString cs [] with
    | some (s, r) => .ok (.str s, r)
    | none => .error .malformed
  else if c = 't' then
    match cs with
    | 'r' :: 'u' :: 'e' :: r => .ok (.bool true, r)
    | _ => .error .malformed
  else if c = 'f' then
    match cs with
    | 'a' :: 'l' :: 's' :: 'e' :: r => .ok (.bool false, r)
    | _ => .error .malformed
  else if c = 'n' then
    match cs with
    | 'u' :: 'l' :: 'l' :: r => .ok (.null, r)
    | _ => .error .malformed
  else if c = '-' then
    match parseNumber ['-'] cs with
    | some (n, r) => .ok (.num n, r)
    | none => .error .malformed
  else
    match parseNumber [] (c :: cs) with
    | some (n, r) => .ok (.num n, r)
    | none => .error .malformed

/-- The recursive-descent reader. In mode `value` it reads one value; in mode
`elements acc` the rest of an array whose first elements are `acc`, up to and
including the closing bracket; in mode `members acc` the rest of an object,
up to and including the closing brace. Each recursive call spends one unit of
fuel. -/
def parseAux : Nat → Mode → List Char → Step
  | 0, _, _ => .error .fuel
  | fuel + 1, .value, cs =>
    match skipWs cs with
    | [] => .error .malformed
    | c :: r =>
      if c = '[' then
        match skipWs r with
        | [] => .error .malformed
        | d :: r1 =>
          if d = ']' then .ok (.arr [], r1)
          else parseAux fuel (.elements []) (d :: r1)
      else if c = '{' then
        match skipWs r with
        | [] => .error .malformed
        | d :: r1 =>
          if d = '}' then .ok (.obj [], r1)
          else parseAux fuel (.members []) (d :: r1)
      else parseScalar c r
  | fuel + 1, .elements acc, cs =>
    match parseAux fuel .value cs with
    | .error e => .error e
    | .ok (v, r) =>
      match skipWs r with
      | [] => .error .malformed
      | d :: r1 =>
        if d = ',' then parseAux fuel (.elements (acc ++ [v])) r1
        else if d = ']' then .ok (.arr (acc ++ [v]), r1)
        else .error .malformed
  | fuel + 1, .members acc, cs =>
    match skipWs cs with
    | [] => .error .malformed
    | q :: r =>
      if q = '"' then
        match parseString r [] with
        | none => .error .malformed
        | some (key, r1) =>
          match skipWs r1 with
          | [] => .error .malformed
          | colon :: r2 =>
            if colon = ':' then
              match parseAux fuel .value r2 with
              | .error e => .error e
              | .ok (v, r3) =>
                match skipWs r3 with
                | [] => .error .malformed
                | d :: r4 =>
                  if d = ',' then parseAux fuel (.members (setProp key v acc)) r4
                  else if d = '}' then .ok (.obj (setProp key v acc), r4)
                  else .error .malformed
            else .error .malformed
      else .error .malformed

/-- Fuel that `parseAux` never exhausts on a text of `n` characters. -/
def parseFuel (n : Nat) : Nat := 2 * n + 2

/-- The builtin `JSON.parse(text)` without reviver: the value denoted by the
whole text, or a `SyntaxError`. -/
def JSON.parse (text : String) : Except JsError JsValue :=
  match parseAux (parseFuel text.data.length) .value text.data with
  | .ok (v, r) =>
    match skipWs r with
    | [] => .ok v
    | _ :: _ => .error .SyntaxError
  | .error _ => .error .SyntaxError

/-- Fuel that suffices for a read in the given mode of a text of `n` characters. -/
def Mode.need : Mode → Nat → Nat
  | .value, n => 2 * n + 1
  | .elements _, n => 2 * n + 2
  | .members _, n => 2 * n + 2

/-! ## The grammar of JSON texts

The texts ECMA-404 calls well formed, and the value each denotes, stated as
tables and derivation rules that do not refer to the reader above. -/

/-- The white space characters. -/
def wsChars : List Char := ['\t', '\n', '\r', ' ']

/-- A run of white space. -/
def Ws (w : List Char) : Prop := ∀ c ∈ w, c ∈ wsChars

/-- The decimal digits. -/
def digitChars : List Char := ['0', '1', '2', '3', '4', '5', '6', '7', '8', '9']

/-- The digits an integer part of several digits can start with. -/
def onenineChars : List Char := ['1', '2', '3', '4', '5', '6', '7', '8', '9']

/-- A run of decimal digits. -/
def Digits (ds : List Char) : Prop := ∀ c ∈ ds, c ∈ digitChars

/-- Integer part of a number literal. -/
def IntPart (cs : List Char) : Prop :=
  cs = ['0'] ∨ ∃ d ds, cs = d :: ds ∧ d ∈ onenineChars ∧ Digits ds

/-- Fraction of a number literal, possibly absent. -/
def FracPart (cs : List Char) : Prop :=
  cs = [] ∨ ∃ ds, cs = '.' :: ds ∧ ds ≠ [] ∧ Digits ds

/-- Exponent of a number literal, possibly absent. -/
def ExpPart (cs : List Char) : Prop :=
  cs = [] ∨ ∃ e sign ds, cs = e :: (sign ++ ds) ∧ e ∈ ['e', 'E'] ∧
    sign ∈ [[], ['+'], ['-']] ∧ ds ≠ [] ∧ Digits ds

/-- A number literal: optional minus, integer part, fraction, exponent. -/
def NumLit (cs : List Char) : Prop :=
  ∃ sign i f e, cs = sign ++ (i ++ (f ++ e)) ∧ sign ∈ [[], ['-']] ∧
    IntPart i ∧ FracPart f ∧ ExpPart e

/-- Characters that stand for themselves inside a string literal: all but the
quote, the backslash and the control characters. -/
def plainChar (c : Char) : Bool := !(c = '"') && !(c = '\\') && decide (0x20 ≤ c.toNat)

/-- The one-character escapes and the code unit each denotes. -/
def escapeTable : List (Char × Nat) :=
  [('"', 0x22), ('\\', 0x5C), ('/', 0x2F), ('b', 0x08), ('f', 0x0C), ('n', 0x0A),
   ('r', 0x0D), ('t', 0x09)]

/-- The hexadecimal digits and their values. -/
def hexTable : List (Char × Nat) :=
  [('0', 0), ('1', 1), ('2', 2), ('3', 3), ('4', 4), ('5', 5), ('6', 6), ('7', 7),
   ('8', 8), ('9', 9), ('a', 10), ('b', 11), ('c', 12), ('d', 13), ('e', 14), ('f', 15),
   ('A', 10), ('B', 11), ('C', 12), ('D', 13), ('E', 14), ('F', 15)]

/-- The characters between the quotes of a string literal, and the code units
they denote. -/
inductive StrBody : List Char → JsString → Prop where
  | done : StrBody [] []
  | plain (c : Char) (cs : List Char) (s : JsString) :
      plainChar c = true → StrBody cs s → StrBody (c :: cs) (utf16Char c ++ s)
  | escape (e : Char) (n : Nat) (cs : List Char) (s : JsString) :
      (e, n) ∈ escapeTable → StrBody cs s → StrBody ('\\' :: e :: cs) (n :: s)
  | unicode (h1 h2 h3 h4 : Char) (n1 n2 n3 n4 : Nat) (cs : List Char) (s : JsString) :
      (h1, n1) ∈ hexTable → (h2, n2) ∈ hexTable → (h3, n3) ∈ hexTable →
      (h4, n4) ∈ hexTable → StrBody cs s →
      StrBody ('\\' :: 'u' :: h1 :: h2 :: h3 :: h4 :: cs)
        ((((n1 * 16 + n2) * 16 + n3) * 16 + n4) :: s)

/-- An element of an array as written: white space, the text of a value, white
space; and the value the text denotes. -/
structure Element where
  before : List Char
  text : List Char
  after : List Char
  value : JsValue

/-- The characters of an element. -/
def Element.chars (e : Element) : List Char := e.before ++ (e.text ++ e.after)

/-- A member of an object as written: white space, the key between quotes, white
space, a colon, and an element; with the key and the value denoted. -/
structure Member where
  before : List Char
  keyText : List Char
  afterKey : List Char
  beforeValue : List Char
  text : List Char
  after : List Char
  key : JsString
  value : JsValue

/-- The characters of a member. -/
def Member.chars (m : Member) : List Char :=
  m.before ++ ('"' :: (m.keyText ++ ('"' :: (m.afterKey ++ (':' ::
    (m.beforeValue ++ (m.text ++ m.after)))))))

/-- Pieces of text separated by commas. -/
def joinComma : List (List Char) → List Char
  | [] => []
  | [x] => x
  | x :: y :: rest => x ++ (',' :: joinComma (y :: rest))

/-- The properties of the object whose members are defined in the order written. -/
def defineAll (ms : List Member) : List (JsString × JsValue) :=
  ms.foldl (fun acc m => setProp m.key m.value acc) []

/-- The value last written under `key` among the members of an object. -/
def lastWritten (key : JsString) : List Member → Option JsValue
  | [] => none
  | m :: ms =>
    match lastWritten key ms with
    | some v => some v
    | none => if m.key = key then some m.value else none

/-- The text of a value, without white space around it, and the value denoted. -/
inductive Value : List Char → JsValue → Prop where
  | null : Value ['n', 'u', 'l', 'l'] .null
  | true : Value ['t', 'r', 'u', 'e'] (.bool true)
  | false : Value ['f', 'a', 'l', 's', 'e'] (.bool false)
  | number (lit : List Char) : NumLit lit → Value lit (.num lit)
  | string (body : List Char) (s : JsString) :
      StrBody body s → Value ('"' :: (body ++ ['"'])) (.str s)
  | emptyArray (w : List Char) : Ws w → Value ('[' :: (w ++ [']'])) (.arr [])
  | array (es : List Element) : es ≠ [] →
      (∀ e ∈ es, Ws e.before ∧ Ws e.after) →
      (∀ e ∈ es, Value e.text e.value) →
      Value ('[' :: (joinComma (es.map Element.chars) ++ [']'])) (.arr (es.map Element.value))
  | emptyObject (w : List Char) : Ws w → Value ('\x7b' :: (w ++ ['\x7d'])) (.obj [])
  | object (ms : List Member) : ms ≠ [] →
      (∀ m ∈ ms, Ws m.before ∧ StrBody m.keyText m.key ∧ Ws m.afterKey ∧
        Ws m.beforeValue ∧ Ws m.after) →
      (∀ m ∈ ms, Value m.text m.value) →
      Value ('\x7b' :: (joinComma (ms.map Member.chars) ++ ['\x7d'])) (.obj (defineAll ms))

/-- A JSON text: a value with white space around it. -/
def JsonText (text : List Char) (v : JsValue) : Prop :=
  ∃ w1 cs w2, Ws w1 ∧ Value cs v ∧ Ws w2 ∧ text = w1 ++ (cs ++ w2)

/-- A JSON text whose value is an object with at least one member: `ms` are the
members as written, in order. -/
def WrittenObject (text : List Char) (ms : List Member) : Prop :=
  ∃ w1 w2, Ws w1 ∧ Ws w2 ∧ ms ≠ [] ∧
    (∀ m ∈ ms, Ws m.before ∧ StrBody m.keyText m.key ∧ Ws m.afterKey ∧
      Ws m.beforeValue ∧ Ws m.after) ∧
    (∀ m ∈ ms, Value m.text m.value) ∧
    text = w1 ++ (('\x7b' :: (joinComma (ms.map Member.chars) ++ ['\x7d'])) ++ w2)

/-- A member written without white space whose key and value are the strings
denoted by two bodies. -/
def stringMember (keyText valueText : List Char) (key value : JsString) : Member where
  before := []
  keyText := keyText
  afterKey := []
  beforeValue := []
  text := '"' :: (valueText ++ ['"'])
  after := []
  key := key
  value := .str value

/-- What a successful read in a given mode says in terms of the grammar: in
mode `value` the text read is white space and a value; in mode `elements` it
is the elements of an array up to the closing bracket; in mode `members` the
members of an object up to the closing brace. -/
def Mode.Accepts : Mode → List Char → JsValue → List Char → Prop
  | .value, cs, v, rest => ∃ w t, Ws w ∧ Value t v ∧ cs = w ++ (t ++ rest)
  | .elements acc, cs, v, rest =>
    ∃ es : List Element, es ≠ [] ∧ (∀ e ∈ es, Ws e.before ∧ Ws e.after) ∧
      (∀ e ∈ es, Value e.text e.value) ∧ v = .arr (acc ++ es.map Element.value) ∧
      cs = joinComma (es.map Element.chars) ++ ']' :: rest
  | .members acc, cs, v, rest =>
    ∃ ms : List Member, ms ≠ [] ∧
      (∀ m ∈ ms, Ws m.before ∧ StrBody m.keyText m.key ∧ Ws m.afterKey ∧
        Ws m.beforeValue ∧ Ws m.after) ∧
      (∀ m ∈ ms, Value m.text m.value) ∧
      v = .obj (ms.foldl (fun a m => setProp m.key m.value a) acc) ∧
      cs = joinComma (ms.map Member.chars) ++ '\x7d' :: rest

/-- The first character of a text, if there is one, satisfies `p`. -/
def HeadSat (p : Char → Prop) : List Char → Prop
  | [] => True
  | c :: _ => p c

/-- What can follow a value inside a text: nothing, white space, a comma or a
closing bracket or brace. -/
def Delim : List Char → Prop
  | [] => True
  | c :: _ => c ∈ wsChars ∨ c = ',' ∨ c = ']' ∨ c = '\x7d'

/-- The text of a value is read as the value when a reader in mode `value` is
given enough fuel. -/
def ReadsAs (text : List Char) (v : JsValue) : Prop :=
  ∀ rest, Delim rest → ∃ fuel, ∀ k, fuel ≤ k → parseAux k .value (text ++ rest) = .ok (v, rest)

/-! ## The console and the handlers of `dropzone.js` -/

/-- The browser console: the values logged so far, oldest first. -/
abbrev Console := List JsValue

/-- The call `console.log(x)`. -/
def console.log (x : JsValue) (c : Console) : Console := c ++ [x]

/-- How the body of a handler ends. -/
inductive Completion where
  | normal
  | throw (e : JsError)
  deriving DecidableEq, Repr

/-- A dropped file, as the handlers can see it. -/
structure File where
  name : String
  deriving DecidableEq, Repr

/-- The handler `reader.onabort`, a closure created while `file` is in scope. -/
def onabort (file : File) (c : Console) : Console × Completion :=
  (console.log (.str (utf16 "file reading was aborted")) c, .normal)

/-- The handler `reader.onerror`. -/
def onerror (file : File) (c : Console) : Console × Completion :=
  (console.log (.str (utf16 "file reading has failed")) c, .normal)

/-- The handler `reader.onload`; `result` is `reader.result`, the decoded text.
An exception raised by `JSON.parse` ends the body at once. -/
def onload (file : File) (result : String) (c : Console) : Console × Completion :=
  let binaryStr := result
  let c1 := console.log (.str (utf16 binaryStr)) c
  match JSON.parse binaryStr with
  | .error e => (c1, .throw e)
  | .ok json =>
    let c2 := console.log json c1
    let c3 := console.log json c2
    (c3, .normal)

/-- A `FileReader` as `onDrop` leaves it: the three handlers installed and the
file handed to `readAsText`. -/
structure FileReader where
  onabort : Console → Console × Completion
  onerror : Console → Console × Completion
  onload : String → Console → Console × Completion
  reading : Option File

/-- The body of the callback `onDrop` passes to `forEach`. -/
def startRead (file : File) : FileReader where
  onabort := Pegbox.onabort file
  onerror := Pegbox.onerror file
  onload := Pegbox.onload file
  reading := some file

/-- The callback `onDrop(acceptedFiles)`: one reader per file, in list order. -/
def onDrop (acceptedFiles : List File) : List FileReader :=
  acceptedFiles.map startRead

/-- The ways a read started by `readAsText` can end. -/
inductive ReadEnd where
  | load (result : String)
  | abort
  | error
  deriving DecidableEq, Repr

/-- The browser fires the event that ends a read on its reader. -/
def FileReader.fire (r : FileReader) : ReadEnd → Console → Console × Completion
  | .load result, c => r.onload result c
  | .abort, c => r.onabort c
  | .error, c => r.onerror c

/-- State of the page between two tasks: the console, and how each handler run
so far ended (an exception that leaves a handler is reported and the event
loop goes on). -/
abbrev Page := Console × List Completion

/-- One task of the event loop: the read of reader number `ev.1` ends with `ev.2`. -/
def runTask (readers : List FileReader) (page : Page) (ev : Nat × ReadEnd) : Page :=
  match readers[ev.1]? with
  | none => page
  | some r => ((r.fire ev.2 page.1).1, page.2 ++ [(r.fire ev.2 page.1).2])

/-- The event loop runs the tasks in their order of arrival. -/
def runEvents (readers : List FileReader) (arrivals : List (Nat × ReadEnd)) (page : Page) :
    Page :=
  arrivals.foldl (runTask readers) page

/-- What the page shows when `file` is dropped alone and its read ends with `e`. -/
def droppedAlone (file : File) (e : ReadEnd) : Page :=
  runEvents (onDrop [file]) [(0, e)] ([], [])

/-! ## Observations on console entries -/

/-- Whether a logged value is the string `msg`. -/
def JsValue.isText (msg : String) : JsValue → Bool
  | .str s => decide (s = utf16 msg)
  | _ => false

/-- Whether a logged value is an object. -/
def JsValue.isObject : JsValue → Bool
  | .obj _ => true
  | _ => false

/-- Whether a logged value is a string in which `name` occurs. -/
def JsValue.mentions (name : String) : JsValue → Bool
  | .str s => s.tails.any (fun t => (utf16 name).isPrefixOf t)
  | _ => false

/-! ## Example texts -/

/-- Scenario 1 of the specification. -/
def recordText : String := "\x7b\"organism\":\"e_coli\",\"version\":\"1.0\"\x7d"

/-- Scenario 2 of the specification. -/
def versionOnlyText : String := "\x7b\"version\":\"1.0\"\x7d"

/-- Scenario 3 of the specification. -/
def malformedText : String := "not json"

/-- Scenario 4 of the specification. -/
def listText : String := "[\"a\",\"b\"]"

/-- A record whose organism is written with an escape. -/
def escapedText : String := "\x7b \"organism\" : \"a\\nb\",\n\"version\":\"1\" \x7d"

/-- Scenario 5 of the specification. -/
def partsText : String :=
  "\x7b\"organism\":\"e_coli\",\"version\":\"1.0\",\"parts\":[1,2,3]\x7d"

/-! ## The reader always makes progress and never runs out of fuel -/

theorem skipWs_length (cs : List Char) : (skipWs cs).length ≤ cs.length := by
  induction cs with
  | nil => simp [skipWs]
  | cons c cs ih =>
    simp only [skipWs]
    split
    · simp only [List.length_cons]; omega
    · simp

theorem skipWs_cons_length {cs r : List Char} {c : Char} (h : skipWs cs = c :: r) :
    r.length < cs.length := by
  have := skipWs_length cs
  rw [h] at this
  simp only [List.length_cons] at this
  omega

theorem parseString_length (cs : List Char) (acc : JsString) :
    ∀ v r, parseString cs acc = some (v, r) → r.length < cs.length := by
  induction cs, acc using parseString.induct <;> intro v r h <;> unfold parseString at h <;> simp_all
  all_goals omega

theorem takeDigits_length (cs : List Char) : (takeDigits cs).2.length ≤ cs.length := by
  induction cs with
  | nil => simp [takeDigits]
  | cons c cs ih =>
    simp only [takeDigits]
    split
    · simp only [List.length_cons]; omega
    · simp

theorem parseInt_length {cs i r : List Char} (h : parseInt cs = some (i, r)) :
    r.length < cs.length := by
  cases cs with
  | nil => simp [parseInt] at h
  | cons c cs =>
    have := takeDigits_length cs
    simp only [parseInt] at h
    split_ifs at h <;> simp_all <;> omega

theorem parseFrac_length {cs f r : List Char} (h : parseFrac cs = some (f, r)) :
    r.length ≤ cs.length := by
  cases cs with
  | nil => simp [parseFrac] at h; simp [h]
  | cons c cs =>
    have := takeDigits_length cs
    simp only [parseFrac] at h
    split_ifs at h <;> simp_all <;> omega

theorem parseExpDigits_length {pre cs e r : List Char}
    (h : parseExpDigits pre cs = some (e, r)) : r.length ≤ cs.length := by
  have := takeDigits_length cs
  simp only [parseExpDigits] at h
  split_ifs at h
  simp only [Option.some.injEq, Prod.mk.injEq] at h
  obtain ⟨-, rfl⟩ := h; omega

theorem parseExp_length {cs e r : List Char} (h : parseExp cs = some (e, r)) :
    r.length ≤ cs.length := by
  cases cs with
  | nil => simp [parseExp] at h; simp [h]
  | cons c cs =>
    simp only [parseExp] at h
    split_ifs at h
    · split at h
      · simp at h
      · split_ifs at h
        · have := parseExpDigits_length h
          simp only [List.length_cons]; omega
        · have := parseExpDigits_length h
          simp only [List.length_cons] at *; omega
    · simp_all

theorem parseNumber_length {sign cs n r : List Char}
    (h : parseNumber sign cs = some (n, r)) : r.length < cs.length := by
  simp only [parseNumber] at h
  split at h
  · simp at h
  · rename_i i r1 hi
    split at h
    · simp at h
    · rename_i f r2 hf
      split at h
      · simp at h
      · rename_i e r3 he
        have h1 := parseInt_length hi
        have h2 := parseFrac_length hf
        have h3 := parseExp_length he
        simp at h
        obtain ⟨-, rfl⟩ := h
        omega

theorem parseScalar_length {c : Char} {cs r : List Char} {v : JsValue}
    (h : parseScalar c cs = .ok (v, r)) : r.length ≤ cs.length := by
  simp only [parseScalar] at h
  split_ifs at h <;> split at h <;> simp at h
  · rename_i hs; have := parseString_length _ _ _ _ hs; obtain ⟨-, rfl⟩ := h; omega
  · obtain ⟨-, rfl⟩ := h; simp only [List.length_cons]; omega
  · obtain ⟨-, rfl⟩ := h; simp only [List.length_cons]; omega
  · obtain ⟨-, rfl⟩ := h; simp only [List.length_cons]; omega
  · rename_i hs; have := parseNumber_length hs; obtain ⟨-, rfl⟩ := h; omega
  · rename_i hs; have := parseNumber_length hs; obtain ⟨-, rfl⟩ := h
    simp only [List.length_cons] at this; omega

theorem parseScalar_fuel (c : Char) (cs : List Char) : parseScalar c cs ≠ .error .fuel := by
  simp only [parseScalar]
  split_ifs <;> split <;> simp

/-- Every successful read consumes at least one character. -/
theorem parseAux_length : ∀ (fuel : Nat) (mode : Mode) (cs : List Char) (v : JsValue)
    (r : List Char), parseAux fuel mode cs = .ok (v, r) → r.length < cs.length := by
  intro fuel
  induction fuel with
  | zero => intro mode cs v r h; simp [parseAux] at h
  | succ n ih =>
    intro mode cs v r h
    cases mode with
    | value =>
      simp only [parseAux] at h
      split at h
      · simp at h
      · rename_i c r0 hws
        have h0 := skipWs_cons_length hws
        split_ifs at h
        · split at h
          · simp at h
          · rename_i d r1 hws1
            have h1 := skipWs_cons_length hws1
            split_ifs at h
            · simp only [Except.ok.injEq, Prod.mk.injEq] at h
              obtain ⟨-, rfl⟩ := h; omega
            · have h2 := ih _ _ _ _ h
              simp only [List.length_cons] at h2; omega
        · split at h
          · simp at h
          · rename_i d r1 hws1
            have h1 := skipWs_cons_length hws1
            split_ifs at h
            · simp only [Except.ok.injEq, Prod.mk.injEq] at h
              obtain ⟨-, rfl⟩ := h; omega
            · have h2 := ih _ _ _ _ h
              simp only [List.length_cons] at h2; omega
        · have h2 := parseScalar_length h; omega
    | elements acc =>
      simp only [parseAux] at h
      split at h
      · simp at h
      · rename_i w r0 hv
        have h0 := ih _ _ _ _ hv
        split at h
        · simp at h
        · rename_i d r1 hws1
          have h1 := skipWs_cons_length hws1
          split_ifs at h
          · have h2 := ih _ _ _ _ h; omega
          · simp only [Except.ok.injEq, Prod.mk.injEq] at h
            obtain ⟨-, rfl⟩ := h; omega
    | members acc =>
      simp only [parseAux] at h
      split at h
      · simp at h
      · rename_i q r0 hws
        have h0 := skipWs_cons_length hws
        split_ifs at h
        · split at h
          · simp at h
          · rename_i key r1 hs
            have h1 := parseString_length _ _ _ _ hs
            split at h
            · simp at h
            · rename_i colon r2 hws2
              have h2 := skipWs_cons_length hws2
              split_ifs at h
              · split at h
                · simp at h
                · rename_i w r3 hv
                  have h3 := ih _ _ _ _ hv
                  split at h
                  · simp at h
                  · rename_i d r4 hws4
                    have h4 := skipWs_cons_length hws4
                    split_ifs at h
                    · have h5 := ih _ _ _ _ h; omega
                    · simp only [Except.ok.injEq, Prod.mk.injEq] at h
                      obtain ⟨-, rfl⟩ := h; omega

/-- With the fuel its mode needs, the reader does not stop for lack of fuel. -/
theorem parseAux_fuel : ∀ (fuel : Nat) (mode : Mode) (cs : List Char),
    mode.need cs.length ≤ fuel → parseAux fuel mode cs ≠ .error .fuel := by
  intro fuel
  induction fuel with
  | zero => intro mode cs h; cases mode <;> simp [Mode.need] at h
  | succ n ih =>
    intro mode cs hn
    cases mode with
    | value =>
      simp only [Mode.need] at hn
      simp only [parseAux]
      split
      · simp
      · rename_i c r0 hws
        have h0 := skipWs_cons_length hws
        split_ifs
        · split
          · simp
          · rename_i d r1 hws1
            have h1 := skipWs_cons_length hws1
            split_ifs
            · simp
            · apply ih
              simp only [Mode.need, List.length_cons]; omega
        · split
          · simp
          · rename_i d r1 hws1
            have h1 := skipWs_cons_length hws1
            split_ifs
            · simp
            · apply ih
              simp only [Mode.need, List.length_cons]; omega
        · exact parseScalar_fuel _ _
    | elements acc =>
      simp only [Mode.need] at hn
      simp only [parseAux]
      split
      · rename_i e he
        intro hc
        simp only [Except.error.injEq] at hc
        subst hc
        exact ih _ _ (by simp only [Mode.need]; omega) he
      · rename_i w r0 hv
        have h0 := parseAux_length _ _ _ _ _ hv
        split
        · simp
        · rename_i d r1 hws1
          have h1 := skipWs_cons_length hws1
          split_ifs
          · apply ih
            simp only [Mode.need]; omega
          · simp
          · simp
    | members acc =>
      simp only [Mode.need] at hn
      simp only [parseAux]
      split
      · simp
      · rename_i q r0 hws
        have h0 := skipWs_cons_length hws
        split_ifs
        · split
          · simp
          · rename_i key r1 hs
            have h1 := parseString_length _ _ _ _ hs
            split
            · simp
            · rename_i colon r2 hws2
              have h2 := skipWs_cons_length hws2
              split_ifs
              · split
                · rename_i e he
                  intro hc
                  simp only [Except.error.injEq] at hc
                  subst hc
                  exact ih _ _ (by simp only [Mode.need]; omega) he
                · rename_i w r3 hv
                  have h3 := parseAux_length _ _ _ _ _ hv
                  split
                  · simp
                  · rename_i d r4 hws4
                    have h4 := skipWs_cons_length hws4
                    split_ifs
                    · apply ih
                      simp only [Mode.need]; omega
                    · simp
                    · simp
              · simp
        · simp

/-- A read that did not stop for lack of fuel gives the same result with more. -/
theorem parseAux_mono : ∀ (n m : Nat) (mode : Mode) (cs : List Char), n ≤ m →
    parseAux n mode cs ≠ .error .fuel → parseAux m mode cs = parseAux n mode cs := by
  intro n
  induction n with
  | zero => intro m mode cs _ h; simp [parseAux] at h
  | succ n ih =>
    intro m mode cs hnm h
    obtain ⟨m, rfl⟩ : ∃ k, m = k + 1 := ⟨m - 1, by omega⟩
    have hle : n ≤ m := by omega
    cases mode with
    | value =>
      simp only [parseAux] at h ⊢
      cases hws : skipWs cs with
      | nil => simp
      | cons c r =>
        simp only [hws] at h ⊢
        split_ifs at h ⊢
        · cases hws1 : skipWs r with
          | nil => simp
          | cons d r1 =>
            simp only [hws1] at h ⊢
            split_ifs at h ⊢
            · rfl
            · exact ih _ _ _ hle h
        · cases hws1 : skipWs r with
          | nil => simp
          | cons d r1 =>
            simp only [hws1] at h ⊢
            split_ifs at h ⊢
            · rfl
            · exact ih _ _ _ hle h
        · rfl
    | elements acc =>
      simp only [parseAux] at h ⊢
      cases hv : parseAux n .value cs with
      | error e =>
        simp only [hv] at h
        have hm := ih m .value cs hle (by rw [hv]; exact h)
        simp only [hm, hv]
      | ok p =>
        obtain ⟨v, r⟩ := p
        have hm := ih m .value cs hle (by rw [hv]; simp)
        simp only [hm, hv] at h ⊢
        cases hws1 : skipWs r with
        | nil => simp
        | cons d r1 =>
          simp only [hws1] at h ⊢
          split_ifs at h ⊢
          · exact ih _ _ _ hle h
          · rfl
          · rfl
    | members acc =>
      simp only [parseAux] at h ⊢
      cases hws : skipWs cs with
      | nil => simp
      | cons q r =>
        simp only [hws] at h ⊢
        split_ifs at h ⊢
        · cases hs : parseString r [] with
          | none => simp
          | some p =>
            obtain ⟨key, r1⟩ := p
            simp only [hs] at h ⊢
            cases hws2 : skipWs r1 with
            | nil => simp
            | cons colon r2 =>
              simp only [hws2] at h ⊢
              split_ifs at h ⊢
              · cases hv : parseAux n .value r2 with
                | error e =>
                  simp only [hv] at h
                  have hm := ih m .value r2 hle (by rw [hv]; exact h)
                  simp only [hm, hv]
                | ok p =>
                  obtain ⟨v, r3⟩ := p
                  have hm := ih m .value r2 hle (by rw [hv]; simp)
                  simp only [hm, hv] at h ⊢
                  cases hws4 : skipWs r3 with
                  | nil => simp
                  | cons d r4 =>
                    simp only [hws4] at h ⊢
                    split_ifs at h ⊢
                    · exact ih _ _ _ hle h
                    · rfl
                    · rfl
              · rfl
        · rfl

/-- The fuel `JSON.parse` gives the reader is never exhausted, and the value read
is the one any larger amount of fuel gives. -/
theorem parseAux_parseFuel (cs : List Char) :
    parseAux (parseFuel cs.length) .value cs ≠ .error .fuel ∧
    ∀ fuel, parseFuel cs.length ≤ fuel →
      parseAux fuel .value cs = parseAux (parseFuel cs.length) .value cs := by
  have h : parseAux (parseFuel cs.length) .value cs ≠ .error .fuel :=
    parseAux_fuel _ _ _ (by simp only [Mode.need, parseFuel]; omega)
  exact ⟨h, fun fuel hf => parseAux_mono _ _ _ _ hf h⟩

/-! ## The reader accepts every text of the grammar -/

theorem isWs_of_mem {c : Char} (h : c ∈ wsChars) : isWs c = true := by
  revert c; decide

theorem skipWs_append_ws {w : List Char} (hw : Ws w) (cs : List Char) :
    skipWs (w ++ cs) = skipWs cs := by
  induction w with
  | nil => rfl
  | cons c w ih =>
    have hc : isWs c = true := isWs_of_mem (hw c (List.mem_cons_self _ _))
    rw [List.cons_append, skipWs, if_pos hc]
    exact ih (fun d hd => hw d (List.mem_cons_of_mem _ hd))

theorem skipWs_cons_of_not_ws {c : Char} (h : isWs c = false) (cs : List Char) :
    skipWs (c :: cs) = c :: cs := by
  simp [skipWs, h]

theorem skipWs_idem (cs : List Char) : skipWs (skipWs cs) = skipWs cs := by
  induction cs with
  | nil => rfl
  | cons c cs ih =>
    by_cases hc : isWs c = true
    · simpa [skipWs, hc] using ih
    · simp [skipWs, hc]

/-- The reader looks at a text only past its leading white space. -/
theorem parseAux_skipWs (fuel : Nat) (mode : Mode) (cs : List Char) :
    parseAux fuel mode (skipWs cs) = parseAux fuel mode cs := by
  induction fuel generalizing mode cs with
  | zero => simp [parseAux]
  | succ n ih =>
    cases mode with
    | value => simp only [parseAux, skipWs_idem]
    | elements acc => simp only [parseAux, ih]
    | members acc => simp only [parseAux, skipWs_idem]

theorem parseAux_ws_append (fuel : Nat) (mode : Mode) {w : List Char} (hw : Ws w)
    (cs : List Char) : parseAux fuel mode (w ++ cs) = parseAux fuel mode cs := by
  rw [← parseAux_skipWs, skipWs_append_ws hw, parseAux_skipWs]

theorem parseAux_ok_mono {n k : Nat} {mode : Mode} {cs : List Char} {r : JsValue × List Char}
    (h : parseAux n mode cs = .ok r) (hk : n ≤ k) : parseAux k mode cs = .ok r := by
  rw [parseAux_mono n k mode cs hk (by rw [h]; simp), h]

theorem escapeChar_of_mem {e : Char} {n : Nat} (h : (e, n) ∈ escapeTable) :
    escapeChar e = some n ∧ e ≠ 'u' := by
  have : ∀ p ∈ escapeTable, escapeChar p.1 = some p.2 ∧ p.1 ≠ 'u' := by decide
  exact this _ h

theorem hexDigit_of_mem {c : Char} {n : Nat} (h : (c, n) ∈ hexTable) : hexDigit c = some n := by
  have : ∀ p ∈ hexTable, hexDigit p.1 = some p.2 := by decide
  exact this _ h

/-- The reader of string literals reads every body of the grammar as the code
units the body denotes. -/
theorem parseString_of_strBody {body : List Char} {s : JsString} (h : StrBody body s)
    (acc : JsString) (rest : List Char) :
    parseString (body ++ '"' :: rest) acc = some (acc ++ s, rest) := by
  induction h generalizing acc with
  | done => rw [List.nil_append, parseString.eq_def]; simp
  | plain c cs s hc _ ih =>
    simp only [plainChar, Bool.and_eq_true, Bool.not_eq_true', decide_eq_false_iff_not,
      decide_eq_true_eq] at hc
    obtain ⟨⟨h1, h2⟩, h3⟩ := hc
    have h4 : ¬ c.toNat < 32 := by omega
    rw [List.cons_append, parseString.eq_def]
    simp only [h1, h2, h4, if_false]
    rw [ih]
    simp [List.append_assoc]
  | escape e n cs s he _ ih =>
    obtain ⟨h1, h2⟩ := escapeChar_of_mem he
    rw [List.cons_append, List.cons_append, parseString.eq_def]
    simp only [h1, h2, if_false]
    simp [ih, List.append_assoc]
  | unicode h1 h2 h3 h4 n1 n2 n3 n4 cs s e1 e2 e3 e4 _ ih =>
    have hx : hex4 h1 h2 h3 h4 = some (((n1 * 16 + n2) * 16 + n3) * 16 + n4) := by
      simp [hex4, hexDigit_of_mem e1, hexDigit_of_mem e2, hexDigit_of_mem e3,
        hexDigit_of_mem e4]
    simp only [List.cons_append]
    rw [parseString.eq_def]
    simp [hx, ih, List.append_assoc]

theorem isDigit_of_mem {c : Char} (h : c ∈ digitChars) : c.isDigit = true := by
  revert c; decide

theorem takeDigits_append {ds : List Char} (hd : Digits ds) {rest : List Char}
    (hr : HeadSat (fun c => c.isDigit = false) rest) :
    takeDigits (ds ++ rest) = (ds, rest) := by
  induction ds with
  | nil =>
    cases rest with
    | nil => rfl
    | cons c r => simp only [HeadSat] at hr; simp [takeDigits, hr]
  | cons d ds ih =>
    have h1 : d.isDigit = true := isDigit_of_mem (hd d (List.mem_cons_self _ _))
    have h2 := ih (fun c hc => hd c (List.mem_cons_of_mem _ hc))
    simp [takeDigits, h1, h2]

theorem parseInt_of_intPart {i : List Char} (hi : IntPart i) {rest : List Char}
    (hr : HeadSat (fun c => c.isDigit = false) rest) :
    parseInt (i ++ rest) = some (i, rest) := by
  rcases hi with rfl | ⟨d, ds, rfl, hd, hds⟩
  · simp [parseInt]
  · have h0 : d ≠ '0' ∧ d.isDigit = true :=
      (by decide : ∀ c ∈ onenineChars, c ≠ '0' ∧ c.isDigit = true) d hd
    simp [parseInt, h0.1, h0.2, takeDigits_append hds hr]

theorem parseFrac_of_fracPart {f : List Char} (hf : FracPart f) {rest : List Char}
    (hr : HeadSat (fun c => c.isDigit = false) rest)
    (hdot : f = [] → HeadSat (fun c => c ≠ '.') rest) :
    parseFrac (f ++ rest) = some (f, rest) := by
  rcases hf with rfl | ⟨ds, rfl, hne, hds⟩
  · cases rest with
    | nil => rfl
    | cons c r => have := hdot rfl; simp only [HeadSat] at this; simp [parseFrac, this]
  · simp [parseFrac, takeDigits_append hds hr, hne]

theorem parseExpDigits_of_digits (pre : List Char) {ds : List Char} (hne : ds ≠ [])
    (hds : Digits ds) {rest : List Char} (hr : HeadSat (fun c => c.isDigit = false) rest) :
    parseExpDigits pre (ds ++ rest) = some (pre ++ ds, rest) := by
  simp [parseExpDigits, takeDigits_append hds hr, hne]

theorem parseExp_of_expPart {e : List Char} (he : ExpPart e) {rest : List Char}
    (hr : HeadSat (fun c => c.isDigit = false) rest)
    (hexp : e = [] → HeadSat (fun c => c ≠ 'e' ∧ c ≠ 'E') rest) :
    parseExp (e ++ rest) = some (e, rest) := by
  rcases he with rfl | ⟨x, sign, ds, rfl, hx, hsign, hne, hds⟩
  · cases rest with
    | nil => rfl
    | cons c r => have := hexp rfl; simp only [HeadSat] at this; simp [parseExp, this]
  · have hx1 : x = 'e' ∨ x = 'E' := by simpa using hx
    obtain ⟨d, ds1, rfl⟩ : ∃ d ds1, ds = d :: ds1 := by
      cases ds with
      | nil => exact absurd rfl hne
      | cons d ds1 => exact ⟨d, ds1, rfl⟩
    have hd : d ≠ '+' ∧ d ≠ '-' :=
      (by decide : ∀ c ∈ digitChars, c ≠ '+' ∧ c ≠ '-') d (hds d (List.mem_cons_self _ _))
    have hsign1 : sign = [] ∨ sign = ['+'] ∨ sign = ['-'] := by simpa using hsign
    rcases hsign1 with rfl | rfl | rfl
    · have := parseExpDigits_of_digits [x] hne hds hr
      simp only [List.nil_append, List.cons_append, parseExp, hx1, if_true]
      simp only [hd.1, hd.2, or_self, if_false]
      simpa using this
    · have := parseExpDigits_of_digits [x, '+'] hne hds hr
      simp only [List.cons_append, List.nil_append, parseExp, hx1, if_true]
      simpa using this
    · have := parseExpDigits_of_digits [x, '-'] hne hds hr
      simp only [List.cons_append, List.nil_append, parseExp, hx1, if_true]
      simpa using this

theorem headSat_of_delim {rest : List Char} (h : Delim rest) :
    HeadSat (fun c => c.isDigit = false ∧ c ≠ '.' ∧ c ≠ 'e' ∧ c ≠ 'E') rest := by
  cases rest with
  | nil => trivial
  | cons c r =>
    simp only [Delim] at h
    simp only [HeadSat]
    rcases h with h | rfl | rfl | rfl
    · exact (by decide : ∀ d ∈ wsChars, d.isDigit = false ∧ d ≠ '.' ∧ d ≠ 'e' ∧ d ≠ 'E') c h
    · decide
    · decide
    · decide

theorem HeadSat.mono {p q : Char → Prop} (hpq : ∀ c, p c → q c) {cs : List Char}
    (h : HeadSat p cs) : HeadSat q cs := by
  cases cs with
  | nil => trivial
  | cons c r => exact hpq c h

theorem headSat_append {p : Char → Prop} {xs ys : List Char}
    (hx : HeadSat p xs) (hy : xs = [] → HeadSat p ys) : HeadSat p (xs ++ ys) := by
  cases xs with
  | nil => exact hy rfl
  | cons c r => exact hx

theorem headSat_expPart {e : List Char} (he : ExpPart e) :
    HeadSat (fun c => c.isDigit = false ∧ c ≠ '.') e := by
  rcases he with rfl | ⟨x, sign, ds, rfl, hx, -⟩
  · trivial
  · exact (by decide : ∀ c ∈ ['e', 'E'], c.isDigit = false ∧ c ≠ '.') x hx

theorem headSat_fracPart {f : List Char} (hf : FracPart f) :
    HeadSat (fun c => c.isDigit = false) f := by
  rcases hf with rfl | ⟨ds, rfl, -⟩
  · trivial
  · exact (by decide : '.'.isDigit = false)

/-- The reader of numbers reads a literal of the grammar whole when a delimiter
follows it. -/
theorem parseNumber_of_parts (sign : List Char) {i f e : List Char} (hi : IntPart i)
    (hf : FracPart f) (he : ExpPart e) {rest : List Char} (hr : Delim rest) :
    parseNumber sign (i ++ (f ++ (e ++ rest))) = some (sign ++ i ++ f ++ e, rest) := by
  have hd := headSat_of_delim hr
  have h3 : HeadSat (fun c => c.isDigit = false ∧ c ≠ '.') (e ++ rest) :=
    headSat_append (headSat_expPart he) (fun _ => hd.mono (fun _ h => ⟨h.1, h.2.1⟩))
  have h2 : HeadSat (fun c => c.isDigit = false) (f ++ (e ++ rest)) :=
    headSat_append (headSat_fracPart hf) (fun _ => h3.mono (fun _ h => h.1))
  have e1 := parseInt_of_intPart hi h2
  have e2 := parseFrac_of_fracPart hf (h3.mono (fun _ h => h.1))
    (fun _ => h3.mono (fun _ h => h.2))
  have e3 := parseExp_of_expPart he (hd.mono (fun _ h => h.1))
    (fun _ => hd.mono (fun _ h => ⟨h.2.2.1, h.2.2.2⟩))
  simp [parseNumber, e1, e2, e3]

theorem intPart_head {i : List Char} (hi : IntPart i) :
    ∃ c cs, i = c :: cs ∧ c ∈ digitChars := by
  rcases hi with rfl | ⟨d, ds, rfl, hd, -⟩
  · exact ⟨'0', [], rfl, by decide⟩
  · exact ⟨d, ds, rfl, (by decide : ∀ c ∈ onenineChars, c ∈ digitChars) d hd⟩

/-- A number literal of the grammar followed by a delimiter is read as a scalar
whose value is the literal. -/
theorem parseScalar_of_numLit {lit : List Char} (h : NumLit lit) {rest : List Char}
    (hr : Delim rest) :
    ∃ c cs, lit = c :: cs ∧ isWs c = false ∧ c ≠ '[' ∧ c ≠ '\x7b' ∧
      parseScalar c (cs ++ rest) = .ok (.num lit, rest) := by
  obtain ⟨sign, i, f, e, rfl, hsign, hi, hf, he⟩ := h
  have hsign1 : sign = [] ∨ sign = ['-'] := by simpa using hsign
  rcases hsign1 with rfl | rfl
  · obtain ⟨c, cs, rfl, hc⟩ := intPart_head hi
    have hc1 : isWs c = false ∧ c ≠ '[' ∧ c ≠ '\x7b' ∧ c ≠ '"' ∧ c ≠ 't' ∧ c ≠ 'f' ∧
        c ≠ 'n' ∧ c ≠ '-' :=
      (by decide : ∀ d ∈ digitChars, isWs d = false ∧ d ≠ '[' ∧ d ≠ '\x7b' ∧ d ≠ '"' ∧
        d ≠ 't' ∧ d ≠ 'f' ∧ d ≠ 'n' ∧ d ≠ '-') c hc
    refine ⟨c, cs ++ (f ++ e), by simp, hc1.1, hc1.2.1, hc1.2.2.1, ?_⟩
    have := parseNumber_of_parts [] hi hf he hr
    simp only [parseScalar, hc1.2.2.2.1, hc1.2.2.2.2.1, hc1.2.2.2.2.2.1, hc1.2.2.2.2.2.2.1,
      hc1.2.2.2.2.2.2.2, if_false]
    simp only [List.cons_append, List.append_assoc, List.nil_append] at this ⊢
    rw [this]
  · refine ⟨'-', i ++ (f ++ e), by simp, by decide, by decide, by decide, ?_⟩
    have := parseNumber_of_parts ['-'] hi hf he hr
    simp only [parseScalar]
    simp only [List.cons_append, List.append_assoc, List.nil_append] at this ⊢
    simp [this]

theorem parseAux_value_scalar (n : Nat) {c : Char} (cs : List Char) (hws : isWs c = false)
    (h1 : c ≠ '[') (h2 : c ≠ '\x7b') :
    parseAux (n + 1) .value (c :: cs) = parseScalar c cs := by
  simp [parseAux, skipWs, hws, h1, h2]

theorem value_head {cs : List Char} {v : JsValue} (h : Value cs v) :
    ∃ c r, cs = c :: r ∧ isWs c = false ∧ c ≠ ']' ∧ c ≠ '\x7d' := by
  cases h with
  | null => exact ⟨_, _, rfl, by decide⟩
  | true => exact ⟨_, _, rfl, by decide⟩
  | false => exact ⟨_, _, rfl, by decide⟩
  | number lit hn =>
    obtain ⟨sign, i, f, e, rfl, hsign, hi, -, -⟩ := hn
    have hsign1 : sign = [] ∨ sign = ['-'] := by simpa using hsign
    rcases hsign1 with rfl | rfl
    · obtain ⟨c, r, rfl, hc⟩ := intPart_head hi
      exact ⟨c, r ++ (f ++ e), by simp,
        (by decide : ∀ d ∈ digitChars, isWs d = false ∧ d ≠ ']' ∧ d ≠ '\x7d') c hc⟩
    · exact ⟨'-', i ++ (f ++ e), by simp, by decide⟩
  | string body s _ => exact ⟨_, _, rfl, by decide⟩
  | emptyArray w _ => exact ⟨_, _, rfl, by decide⟩
  | array es _ _ _ => exact ⟨_, _, rfl, by decide⟩
  | emptyObject w _ => exact ⟨_, _, rfl, by decide⟩
  | object ms _ _ _ => exact ⟨_, _, rfl, by decide⟩

theorem delim_ws_append {w : List Char} (hw : Ws w) {rest : List Char} (hr : Delim rest) :
    Delim (w ++ rest) := by
  cases w with
  | nil => exact hr
  | cons c w => exact Or.inl (hw c (List.mem_cons_self _ _))

theorem parseAux_elements_step (k : Nat) (acc : List JsValue) (e : Element)
    (hb : Ws e.before) (ha : Ws e.after) (rest : List Char)
    (hv : parseAux k .value (e.text ++ (e.after ++ rest)) = .ok (e.value, e.after ++ rest)) :
    parseAux (k + 1) (.elements acc) (e.chars ++ rest) =
      match skipWs rest with
      | [] => .error .malformed
      | d :: r1 =>
        if d = ',' then parseAux k (.elements (acc ++ [e.value])) r1
        else if d = ']' then .ok (.arr (acc ++ [e.value]), r1)
        else .error .malformed := by
  have h1 : parseAux k .value (e.chars ++ rest) = .ok (e.value, e.after ++ rest) := by
    simp only [Element.chars, List.append_assoc]
    rw [parseAux_ws_append k .value hb, hv]
  rw [parseAux]
  simp only [h1, skipWs_append_ws ha]

theorem parseAux_of_elements (es : List Element) (hne : es ≠ [])
    (hws : ∀ e ∈ es, Ws e.before ∧ Ws e.after) (hval : ∀ e ∈ es, ReadsAs e.text e.value)
    (acc : List JsValue) (rest : List Char) :
    ∃ fuel, ∀ k, fuel ≤ k →
      parseAux k (.elements acc) (joinComma (es.map Element.chars) ++ ']' :: rest) =
        .ok (.arr (acc ++ es.map Element.value), rest) := by
  induction es generalizing acc with
  | nil => exact absurd rfl hne
  | cons e es ih =>
    obtain ⟨hb, ha⟩ := hws e (List.mem_cons_self _ _)
    cases es with
    | nil =>
      obtain ⟨f1, h1⟩ := hval e (List.mem_cons_self _ _) (e.after ++ ']' :: rest)
        (delim_ws_append ha (by simp [Delim]))
      refine ⟨f1 + 1, fun k hk => ?_⟩
      obtain ⟨k, rfl⟩ : ∃ j, k = j + 1 := ⟨k - 1, by omega⟩
      have := parseAux_elements_step k acc e hb ha (']' :: rest) (h1 k (by omega))
      simp only [List.map_cons, List.map_nil, joinComma]
      rw [this]
      simp [skipWs, isWs]
    | cons e2 tl =>
      obtain ⟨f1, h1⟩ := hval e (List.mem_cons_self _ _)
        (e.after ++ ',' :: (joinComma ((e2 :: tl).map Element.chars) ++ ']' :: rest))
        (delim_ws_append ha (by simp [Delim]))
      obtain ⟨f2, h2⟩ := ih (by simp) (fun x hx => hws x (List.mem_cons_of_mem _ hx))
        (fun x hx => hval x (List.mem_cons_of_mem _ hx)) (acc ++ [e.value])
      refine ⟨max f1 f2 + 1, fun k hk => ?_⟩
      obtain ⟨k, rfl⟩ : ∃ j, k = j + 1 := ⟨k - 1, by omega⟩
      have := parseAux_elements_step k acc e hb ha
        (',' :: (joinComma ((e2 :: tl).map Element.chars) ++ ']' :: rest))
        (h1 k (by omega))
      simp only [List.map_cons, joinComma, List.append_assoc, List.cons_append] at this ⊢
      rw [this]
      have h3 := h2 k (by omega)
      simp only [List.map_cons, List.append_assoc, List.cons_append] at h3
      simp [skipWs, isWs, h3]

theorem parseAux_members_step (k : Nat) (acc : List (JsString × JsValue)) (m : Member)
    (hw : Ws m.before ∧ StrBody m.keyText m.key ∧ Ws m.afterKey ∧ Ws m.beforeValue ∧
      Ws m.after) (rest : List Char)
    (hv : parseAux k .value (m.text ++ (m.after ++ rest)) = .ok (m.value, m.after ++ rest)) :
    parseAux (k + 1) (.members acc) (m.chars ++ rest) =
      match skipWs rest with
      | [] => .error .malformed
      | d :: r1 =>
        if d = ',' then parseAux k (.members (setProp m.key m.value acc)) r1
        else if d = '\x7d' then .ok (.obj (setProp m.key m.value acc), r1)
        else .error .malformed := by
  obtain ⟨h1, h2, h3, h4, h5⟩ := hw
  have hs := parseString_of_strBody h2 []
    (m.afterKey ++ (':' :: (m.beforeValue ++ (m.text ++ (m.after ++ rest)))))
  rw [parseAux]
  simp only [Member.chars, List.append_assoc, List.cons_append, skipWs_append_ws h1]
  rw [skipWs_cons_of_not_ws (by decide)]
  simp only [if_true, hs, List.nil_append, skipWs_append_ws h3]
  rw [skipWs_cons_of_not_ws (by decide)]
  simp only [if_true, parseAux_ws_append k .value h4, hv, skipWs_append_ws h5]

theorem parseAux_of_members (ms : List Member) (hne : ms ≠ [])
    (hws : ∀ m ∈ ms, Ws m.before ∧ StrBody m.keyText m.key ∧ Ws m.afterKey ∧
      Ws m.beforeValue ∧ Ws m.after)
    (hval : ∀ m ∈ ms, ReadsAs m.text m.value)
    (acc : List (JsString × JsValue)) (rest : List Char) :
    ∃ fuel, ∀ k, fuel ≤ k →
      parseAux k (.members acc) (joinComma (ms.map Member.chars) ++ '\x7d' :: rest) =
        .ok (.obj (ms.foldl (fun a m => setProp m.key m.value a) acc), rest) := by
  induction ms generalizing acc with
  | nil => exact absurd rfl hne
  | cons m ms ih =>
    have hm := hws m (List.mem_cons_self _ _)
    cases ms with
    | nil =>
      obtain ⟨f1, h1⟩ := hval m (List.mem_cons_self _ _) (m.after ++ '\x7d' :: rest)
        (delim_ws_append hm.2.2.2.2 (by simp [Delim]))
      refine ⟨f1 + 1, fun k hk => ?_⟩
      obtain ⟨k, rfl⟩ : ∃ j, k = j + 1 := ⟨k - 1, by omega⟩
      have := parseAux_members_step k acc m hm ('\x7d' :: rest) (h1 k (by omega))
      simp only [List.map_cons, List.map_nil, joinComma]
      rw [this]
      simp [skipWs, isWs]
    | cons m2 tl =>
      obtain ⟨f1, h1⟩ := hval m (List.mem_cons_self _ _)
        (m.after ++ ',' :: (joinComma ((m2 :: tl).map Member.chars) ++ '\x7d' :: rest))
        (delim_ws_append hm.2.2.2.2 (by simp [Delim]))
      obtain ⟨f2, h2⟩ := ih (by simp) (fun x hx => hws x (List.mem_cons_of_mem _ hx))
        (fun x hx => hval x (List.mem_cons_of_mem _ hx)) (setProp m.key m.value acc)
      refine ⟨max f1 f2 + 1, fun k hk => ?_⟩
      obtain ⟨k, rfl⟩ : ∃ j, k = j + 1 := ⟨k - 1, by omega⟩
      have := parseAux_members_step k acc m hm
        (',' :: (joinComma ((m2 :: tl).map Member.chars) ++ '\x7d' :: rest))
        (h1 k (by omega))
      simp only [List.map_cons, joinComma, List.append_assoc, List.cons_append] at this ⊢
      rw [this]
      have h3 := h2 k (by omega)
      simp only [List.map_cons, List.append_assoc, List.cons_append] at h3
      simp [skipWs, isWs, h3]

theorem parseAux_value_array (n : Nat) (r : List Char) {d : Char} {r1 : List Char}
    (hs : skipWs r = d :: r1) (hd : d ≠ ']') :
    parseAux (n + 1) .value ('[' :: r) = parseAux n (.elements []) r := by
  rw [parseAux, skipWs_cons_of_not_ws (by decide)]
  simp only [if_true, hs, hd, if_false]
  rw [← hs, parseAux_skipWs]

theorem parseAux_value_object (n : Nat) (r : List Char) {d : Char} {r1 : List Char}
    (hs : skipWs r = d :: r1) (hd : d ≠ '\x7d') :
    parseAux (n + 1) .value ('\x7b' :: r) = parseAux n (.members []) r := by
  rw [parseAux, skipWs_cons_of_not_ws (by decide)]
  simp only [(by decide : ¬ '\x7b' = '['), if_true, if_false, hs, hd]
  rw [← hs, parseAux_skipWs]

theorem joinComma_cons_append (x : List Char) (xs : List (List Char)) (rest : List Char) :
    ∃ tl, joinComma (x :: xs) ++ rest = x ++ tl := by
  cases xs with
  | nil => exact ⟨rest, rfl⟩
  | cons y ys => exact ⟨',' :: (joinComma (y :: ys) ++ rest), by simp [joinComma]⟩

/-- Completeness of the reader for values: the text of a value of the grammar,
followed by a delimiter, is read as the value it denotes. -/
theorem readsAs_of_value {cs : List Char} {v : JsValue} (h : Value cs v) : ReadsAs cs v := by
  induction h with
  | null =>
    intro rest _
    refine ⟨1, fun k hk => ?_⟩
    obtain ⟨k, rfl⟩ : ∃ j, k = j + 1 := ⟨k - 1, by omega⟩
    simp only [List.cons_append, List.nil_append]
    rw [parseAux_value_scalar k _ (by decide) (by decide) (by decide)]
    simp [parseScalar]
  | true =>
    intro rest _
    refine ⟨1, fun k hk => ?_⟩
    obtain ⟨k, rfl⟩ : ∃ j, k = j + 1 := ⟨k - 1, by omega⟩
    simp only [List.cons_append, List.nil_append]
    rw [parseAux_value_scalar k _ (by decide) (by decide) (by decide)]
    simp [parseScalar]
  | false =>
    intro rest _
    refine ⟨1, fun k hk => ?_⟩
    obtain ⟨k, rfl⟩ : ∃ j, k = j + 1 := ⟨k - 1, by omega⟩
    simp only [List.cons_append, List.nil_append]
    rw [parseAux_value_scalar k _ (by decide) (by decide) (by decide)]
    simp [parseScalar]
  | number lit hn =>
    intro rest hr
    obtain ⟨c, r, rfl, h1, h2, h3, h4⟩ := parseScalar_of_numLit hn hr
    refine ⟨1, fun k hk => ?_⟩
    obtain ⟨k, rfl⟩ : ∃ j, k = j + 1 := ⟨k - 1, by omega⟩
    rw [List.cons_append, parseAux_value_scalar k _ h1 h2 h3, h4]
  | string body s hs =>
    intro rest _
    refine ⟨1, fun k hk => ?_⟩
    obtain ⟨k, rfl⟩ : ∃ j, k = j + 1 := ⟨k - 1, by omega⟩
    have := parseString_of_strBody hs [] rest
    simp only [List.cons_append, List.append_assoc, List.nil_append]
    rw [parseAux_value_scalar k _ (by decide) (by decide) (by decide)]
    simp only [parseScalar, if_true]
    simp only [List.nil_append] at this
    simp [this]
  | emptyArray w hw =>
    intro rest _
    refine ⟨1, fun k hk => ?_⟩
    obtain ⟨k, rfl⟩ : ∃ j, k = j + 1 := ⟨k - 1, by omega⟩
    simp only [List.cons_append, List.append_assoc, List.nil_append]
    rw [parseAux, skipWs_cons_of_not_ws (by decide)]
    simp only [if_true, skipWs_append_ws hw]
    rw [skipWs_cons_of_not_ws (by decide)]
    simp
  | array es hne hws _ ih =>
    intro rest _
    obtain ⟨f, hf⟩ := parseAux_of_elements es hne hws ih [] rest
    refine ⟨f + 1, fun k hk => ?_⟩
    obtain ⟨k, rfl⟩ : ∃ j, k = j + 1 := ⟨k - 1, by omega⟩
    obtain ⟨e, tl, rfl⟩ : ∃ e tl, es = e :: tl := by
      cases es with
      | nil => exact absurd rfl hne
      | cons e tl => exact ⟨e, tl, rfl⟩
    obtain ⟨c, r, hc, hcw, hc1, -⟩ := value_head
      (by rename_i hv; exact hv e (List.mem_cons_self _ _))
    obtain ⟨t, ht⟩ := joinComma_cons_append e.chars (tl.map Element.chars) (']' :: rest)
    have hskip : skipWs (joinComma ((e :: tl).map Element.chars) ++ ']' :: rest) =
        c :: (r ++ (e.after ++ t)) := by
      rw [List.map_cons, ht, Element.chars, List.append_assoc,
        skipWs_append_ws (hws e (List.mem_cons_self _ _)).1, hc]
      simp [skipWs_cons_of_not_ws hcw]
    simp only [List.cons_append, List.append_assoc, List.nil_append]
    rw [parseAux_value_array k _ hskip hc1, hf k (by omega)]
    simp
  | emptyObject w hw =>
    intro rest _
    refine ⟨1, fun k hk => ?_⟩
    obtain ⟨k, rfl⟩ : ∃ j, k = j + 1 := ⟨k - 1, by omega⟩
    simp only [List.cons_append, List.append_assoc, List.nil_append]
    rw [parseAux, skipWs_cons_of_not_ws (by decide)]
    simp only [(by decide : ¬ '\x7b' = '['), if_true, if_false, skipWs_append_ws hw]
    rw [skipWs_cons_of_not_ws (by decide)]
    simp
  | object ms hne hws _ ih =>
    intro rest _
    obtain ⟨f, hf⟩ := parseAux_of_members ms hne hws ih [] rest
    refine ⟨f + 1, fun k hk => ?_⟩
    obtain ⟨k, rfl⟩ : ∃ j, k = j + 1 := ⟨k - 1, by omega⟩
    obtain ⟨m, tl, rfl⟩ : ∃ m tl, ms = m :: tl := by
      cases ms with
      | nil => exact absurd rfl hne
      | cons m tl => exact ⟨m, tl, rfl⟩
    obtain ⟨t, ht⟩ := joinComma_cons_append m.chars (tl.map Member.chars) ('\x7d' :: rest)
    have hskip : ∃ r1, skipWs (joinComma ((m :: tl).map Member.chars) ++ '\x7d' :: rest) =
        '"' :: r1 := by
      rw [List.map_cons, ht, Member.chars, List.append_assoc,
        skipWs_append_ws (hws m (List.mem_cons_self _ _)).1]
      exact ⟨_, skipWs_cons_of_not_ws (by decide) _⟩
    obtain ⟨r1, hr1⟩ := hskip
    simp only [List.cons_append, List.append_assoc, List.nil_append]
    rw [parseAux_value_object k _ hr1 (by decide), hf k (by omega)]
    rfl

/-- Completeness of `JSON.parse`: every text of the grammar parses, and parses as
the value it denotes. -/
theorem JSON.parse_of_jsonText {text : String} {v : JsValue} (h : JsonText text.data v) :
    JSON.parse text = .ok v := by
  obtain ⟨w1, cs, w2, hw1, hv, hw2, htext⟩ := h
  have hd : Delim w2 := by
    have := delim_ws_append hw2 (show Delim [] from trivial)
    simpa using this
  obtain ⟨f, hf⟩ := readsAs_of_value hv w2 hd
  have h1 : parseAux (max f (parseFuel text.data.length)) .value text.data = .ok (v, w2) := by
    rw [htext, parseAux_ws_append _ _ hw1]
    exact hf _ (le_max_left _ _)
  have h2 := (parseAux_parseFuel text.data).2 _ (le_max_right f _)
  rw [h1] at h2
  have h3 : skipWs w2 = [] := by
    have := skipWs_append_ws hw2 []
    simpa [skipWs] using this
  simp only [JSON.parse, ← h2, h3]

/-! ## The properties of a written object -/

theorem getProp_setProp (key k : JsString) (v : JsValue) (acc : List (JsString × JsValue)) :
    getProp key (setProp k v acc) = if k = key then some v else getProp key acc := by
  induction acc with
  | nil => simp [setProp, getProp]
  | cons p acc ih =>
    obtain ⟨k1, w⟩ := p
    by_cases h1 : k1 = k
    · subst h1
      by_cases h2 : k1 = key <;> simp [setProp, getProp, h2]
    · by_cases h2 : k1 = key
      · subst h2
        have h3 : ¬ k = k1 := fun h => h1 h.symm
        simp [setProp, getProp, h1, h3]
      · simp [setProp, getProp, h1, h2, ih]

theorem getProp_foldl_setProp (key : JsString) (ms : List Member)
    (acc : List (JsString × JsValue)) :
    getProp key (ms.foldl (fun a m => setProp m.key m.value a) acc) =
      match lastWritten key ms with
      | some v => some v
      | none => getProp key acc := by
  induction ms generalizing acc with
  | nil => simp [lastWritten]
  | cons m ms ih =>
    rw [List.foldl_cons, ih, lastWritten]
    cases lastWritten key ms with
    | some v => rfl
    | none =>
      simp only [getProp_setProp]
      by_cases h : m.key = key <;> simp [h]

/-- A property of the object denoted by a text is the value last written under
its key. -/
theorem getProp_defineAll (key : JsString) (ms : List Member) :
    getProp key (defineAll ms) = lastWritten key ms := by
  rw [defineAll, getProp_foldl_setProp]
  cases lastWritten key ms <;> simp [getProp]

theorem jsonText_of_writtenObject {text : List Char} {ms : List Member}
    (h : WrittenObject text ms) : JsonText text (.obj (defineAll ms)) := by
  obtain ⟨w1, w2, hw1, hw2, hne, hws, hval, rfl⟩ := h
  exact ⟨w1, _, w2, hw1, Value.object ms hne hws hval, hw2, rfl⟩

/-- A body of plain characters denotes these characters. -/
theorem strBody_plain (cs : List Char) (h : ∀ c ∈ cs, plainChar c = true) :
    StrBody cs (utf16Chars cs) := by
  induction cs with
  | nil => exact StrBody.done
  | cons c cs ih =>
    exact StrBody.plain c cs _ (h c (List.mem_cons_self _ _))
      (ih (fun d hd => h d (List.mem_cons_of_mem _ hd)))

theorem ws_nil : Ws [] := fun _ h => absurd h (List.not_mem_nil _)

/-- The text of scenario 1 is an object text with two members written without
white space. -/
theorem writtenObject_recordText :
    WrittenObject recordText.data
      [stringMember "organism".data "e_coli".data (utf16 "organism") (utf16 "e_coli"),
       stringMember "version".data "1.0".data (utf16 "version") (utf16 "1.0")] := by
  refine ⟨[], [], ws_nil, ws_nil, by simp, ?_, ?_, by decide⟩
  · intro m hm
    simp only [List.mem_cons, List.mem_singleton, List.not_mem_nil, or_false] at hm
    rcases hm with rfl | rfl
    · exact ⟨ws_nil, strBody_plain _ (by decide), ws_nil, ws_nil, ws_nil⟩
    · exact ⟨ws_nil, strBody_plain _ (by decide), ws_nil, ws_nil, ws_nil⟩
  · intro m hm
    simp only [List.mem_cons, List.mem_singleton, List.not_mem_nil, or_false] at hm
    rcases hm with rfl | rfl
    · exact Value.string _ _ (strBody_plain _ (by decide))
    · exact Value.string _ _ (strBody_plain _ (by decide))

/-- The text `escapedText` is an object text: white space around the members,
and a line feed written as an escape inside the organism. -/
theorem writtenObject_escapedText :
    WrittenObject escapedText.data
      [⟨[' '], "organism".data, [' '], [' '], ['"', 'a', '\\', 'n', 'b', '"'], [],
          utf16 "organism", .str [0x61, 0x0A, 0x62]⟩,
       ⟨['\n'], "version".data, [], [], ['"', '1', '"'], [' '],
          utf16 "version", .str [0x31]⟩] := by
  refine ⟨[], [], ws_nil, ws_nil, by simp, ?_, ?_, by decide⟩
  · intro m hm
    simp only [List.mem_cons, List.mem_singleton, List.not_mem_nil, or_false] at hm
    rcases hm with rfl | rfl
    · exact ⟨by unfold Ws; decide, strBody_plain _ (by decide), by unfold Ws; decide,
        by unfold Ws; decide, ws_nil⟩
    · exact ⟨by unfold Ws; decide, strBody_plain _ (by decide), ws_nil, ws_nil,
        by unfold Ws; decide⟩
  · intro m hm
    simp only [List.mem_cons, List.mem_singleton, List.not_mem_nil, or_false] at hm
    rcases hm with rfl | rfl
    · exact Value.string ['a', '\\', 'n', 'b'] _
        (StrBody.plain 'a' _ _ (by decide)
          (StrBody.escape 'n' 0x0A _ _ (by decide)
            (StrBody.plain 'b' [] [] (by decide) StrBody.done)))
    · exact Value.string ['1'] _ (StrBody.plain '1' [] [] (by decide) StrBody.done)

/-! ## The reader accepts only texts of the grammar -/

theorem char_mem_of_toNat {c : Char} {l : List Char} (h : c.toNat ∈ l.map Char.toNat) :
    c ∈ l := by
  obtain ⟨d, hd, hdc⟩ := List.mem_map.mp h
  have : d = c := by rw [← Char.ofNat_toNat d, hdc, Char.ofNat_toNat]
  exact this ▸ hd

theorem mem_digitChars_of_isDigit {c : Char} (h : c.isDigit = true) : c ∈ digitChars := by
  simp only [Char.isDigit, Bool.and_eq_true, decide_eq_true_eq] at h
  have h1 : 48 ≤ c.toNat := h.1
  have h2 : c.toNat ≤ 57 := h.2
  apply char_mem_of_toNat
  generalize c.toNat = n at h1 h2
  interval_cases n <;> decide

theorem mem_wsChars_of_isWs {c : Char} (h : isWs c = true) : c ∈ wsChars := by
  simp only [isWs, Bool.or_eq_true, decide_eq_true_eq] at h
  rcases h with ((rfl | rfl) | rfl) | rfl <;> decide

theorem mem_escapeTable {e : Char} {n : Nat} (h : escapeChar e = some n) :
    (e, n) ∈ escapeTable := by
  simp only [escapeChar] at h
  split_ifs at h <;> simp only [Option.some.injEq] at h <;> subst h <;> subst_vars <;> decide

theorem pair_mem_of_toNat {c : Char} {n : Nat} {t : List (Char × Nat)}
    (h : (c.toNat, n) ∈ t.map (fun p => (p.1.toNat, p.2))) : (c, n) ∈ t := by
  obtain ⟨⟨d, k⟩, hd, hdc⟩ := List.mem_map.mp h
  simp only [Prod.mk.injEq] at hdc
  have : d = c := by rw [← Char.ofNat_toNat d, hdc.1, Char.ofNat_toNat]
  rw [← this, ← hdc.2]
  exact hd

theorem mem_hexTable {c : Char} {n : Nat} (h : hexDigit c = some n) : (c, n) ∈ hexTable := by
  simp only [hexDigit] at h
  split_ifs at h with h1 h2 h3
  · have a1 : 48 ≤ c.toNat := h1.1
    have a2 : c.toNat ≤ 57 := h1.2
    simp only [Option.some.injEq] at h
    subst h
    apply pair_mem_of_toNat
    generalize c.toNat = m at a1 a2
    interval_cases m <;> decide
  · have a1 : 97 ≤ c.toNat := h2.1
    have a2 : c.toNat ≤ 102 := h2.2
    simp only [Option.some.injEq] at h
    subst h
    apply pair_mem_of_toNat
    generalize c.toNat = m at a1 a2
    interval_cases m <;> decide
  · have a1 : 65 ≤ c.toNat := h3.1
    have a2 : c.toNat ≤ 70 := h3.2
    simp only [Option.some.injEq] at h
    subst h
    apply pair_mem_of_toNat
    generalize c.toNat = m at a1 a2
    interval_cases m <;> decide

/-- The reader of string literals reads only bodies of the grammar. -/
theorem strBody_of_parseString (cs : List Char) (acc : JsString) :
    ∀ s rest, parseString cs acc = some (s, rest) →
      ∃ body t, StrBody body t ∧ s = acc ++ t ∧ cs = body ++ '"' :: rest := by
  induction cs, acc using parseString.induct <;> intro s rest h <;> unfold parseString at h <;>
    simp [*] at h
  case case2 =>
    obtain ⟨rfl, rfl⟩ := h
    exact ⟨[], [], StrBody.done, by simp, rfl⟩
  case case4 h1 h2 h3 h4 cs2 u hx _ ih =>
    obtain ⟨body, t, hb, rfl, rfl⟩ := ih _ _ h
    simp only [hex4] at hx
    split at hx
    · rename_i w x y z e1 e2 e3 e4
      simp only [Option.some.injEq] at hx
      subst hx
      exact ⟨_, _, StrBody.unicode h1 h2 h3 h4 w x y z body t (mem_hexTable e1)
        (mem_hexTable e2) (mem_hexTable e3) (mem_hexTable e4) hb, by simp, rfl⟩
    · simp at hx
  case case7 e cs hne u hesc _ ih =>
    obtain ⟨body, t, hb, rfl, rfl⟩ := ih _ _ h
    exact ⟨_, _, StrBody.escape e u body t (mem_escapeTable hesc) hb, by simp, rfl⟩
  case case10 c cs acc hq hb h32 ih =>
    obtain ⟨body, t, hbody, rfl, rfl⟩ := ih _ _ h
    refine ⟨_, _, StrBody.plain c body t ?_ hbody, by simp, rfl⟩
    simp only [plainChar, hq, hb, decide_False, Bool.not_false, Bool.and_self, Bool.true_and,
      decide_eq_true_eq]
    omega

theorem takeDigits_sound (cs : List Char) :
    Digits (takeDigits cs).1 ∧ (takeDigits cs).1 ++ (takeDigits cs).2 = cs := by
  induction cs with
  | nil => exact ⟨fun _ h => absurd h (List.not_mem_nil _), rfl⟩
  | cons c cs ih =>
    by_cases hc : c.isDigit = true
    · simp only [takeDigits, hc, if_true]
      refine ⟨fun d hd => ?_, by simp [ih.2]⟩
      rcases List.mem_cons.mp hd with rfl | hd
      · exact mem_digitChars_of_isDigit hc
      · exact ih.1 d hd
    · simp only [takeDigits, hc]
      exact ⟨fun _ h => absurd h (List.not_mem_nil _), rfl⟩

theorem parseInt_sound {cs i r : List Char} (h : parseInt cs = some (i, r)) :
    IntPart i ∧ cs = i ++ r := by
  cases cs with
  | nil => simp [parseInt] at h
  | cons c cs =>
    simp only [parseInt] at h
    split_ifs at h with h0 hd
    · simp only [Option.some.injEq, Prod.mk.injEq] at h
      obtain ⟨rfl, rfl⟩ := h
      exact ⟨Or.inl rfl, by simp [h0]⟩
    · simp only [Option.some.injEq, Prod.mk.injEq] at h
      obtain ⟨rfl, rfl⟩ := h
      have hts := takeDigits_sound cs
      refine ⟨Or.inr ⟨c, _, rfl, ?_, hts.1⟩, by simp [hts.2]⟩
      have hm := mem_digitChars_of_isDigit hd
      simp only [digitChars, List.mem_cons] at hm
      rcases hm with rfl | hm
      · exact absurd rfl h0
      · simpa [onenineChars] using hm

theorem parseFrac_sound {cs f r : List Char} (h : parseFrac cs = some (f, r)) :
    FracPart f ∧ cs = f ++ r := by
  cases cs with
  | nil =>
    simp only [parseFrac, Option.some.injEq, Prod.mk.injEq] at h
    obtain ⟨rfl, rfl⟩ := h
    exact ⟨Or.inl rfl, rfl⟩
  | cons c cs =>
    simp only [parseFrac] at h
    split_ifs at h with h0 hd
    · simp only [Option.some.injEq, Prod.mk.injEq] at h
      obtain ⟨rfl, rfl⟩ := h
      have hts := takeDigits_sound cs
      exact ⟨Or.inr ⟨_, by rw [h0], hd, hts.1⟩, by simp [hts.2]⟩
    · simp only [Option.some.injEq, Prod.mk.injEq] at h
      obtain ⟨rfl, rfl⟩ := h
      exact ⟨Or.inl rfl, rfl⟩

theorem parseExpDigits_sound {pre cs e r : List Char}
    (h : parseExpDigits pre cs = some (e, r)) :
    ∃ ds, ds ≠ [] ∧ Digits ds ∧ e = pre ++ ds ∧ cs = ds ++ r := by
  simp only [parseExpDigits] at h
  split_ifs at h with hd
  simp only [Option.some.injEq, Prod.mk.injEq] at h
  obtain ⟨rfl, rfl⟩ := h
  have hts := takeDigits_sound cs
  exact ⟨_, hd, hts.1, rfl, hts.2.symm⟩

theorem parseExp_sound {cs e r : List Char} (h : parseExp cs = some (e, r)) :
    ExpPart e ∧ cs = e ++ r := by
  cases cs with
  | nil =>
    simp only [parseExp, Option.some.injEq, Prod.mk.injEq] at h
    obtain ⟨rfl, rfl⟩ := h
    exact ⟨Or.inl rfl, rfl⟩
  | cons c cs =>
    simp only [parseExp] at h
    split_ifs at h with h0
    · have hc : c ∈ ['e', 'E'] := by simpa using h0
      cases cs with
      | nil => simp at h
      | cons s cs1 =>
        simp only at h
        split_ifs at h with hs
        · obtain ⟨ds, hne, hds, rfl, rfl⟩ := parseExpDigits_sound h
          refine ⟨Or.inr ⟨c, [s], ds, by simp, hc, ?_, hne, hds⟩, by simp⟩
          rcases hs with rfl | rfl <;> simp
        · obtain ⟨ds, hne, hds, rfl, hcs⟩ := parseExpDigits_sound h
          exact ⟨Or.inr ⟨c, [], ds, by simp, hc, by simp, hne, hds⟩, by simp [hcs]⟩
    · simp only [Option.some.injEq, Prod.mk.injEq] at h
      obtain ⟨rfl, rfl⟩ := h
      exact ⟨Or.inl rfl, rfl⟩

theorem parseNumber_sound {sign cs lit r : List Char} (hsign : sign ∈ [[], ['-']])
    (h : parseNumber sign cs = some (lit, r)) : NumLit lit ∧ sign ++ cs = lit ++ r := by
  simp only [parseNumber] at h
  split at h
  · simp at h
  · rename_i i r1 hi
    split at h
    · simp at h
    · rename_i f r2 hf
      split at h
      · simp at h
      · rename_i e r3 he
        simp only [Option.some.injEq, Prod.mk.injEq] at h
        obtain ⟨rfl, rfl⟩ := h
        obtain ⟨h1, rfl⟩ := parseInt_sound hi
        obtain ⟨h2, rfl⟩ := parseFrac_sound hf
        obtain ⟨h3, rfl⟩ := parseExp_sound he
        exact ⟨⟨sign, i, f, e, by simp, hsign, h1, h2, h3⟩, by simp⟩

/-- A scalar the reader accepts is a value of the grammar. -/
theorem parseScalar_sound {c : Char} {cs r : List Char} {v : JsValue}
    (h : parseScalar c cs = .ok (v, r)) : ∃ t, Value t v ∧ c :: cs = t ++ r := by
  simp only [parseScalar] at h
  split_ifs at h with h1 h2 h3 h4 h5
  · split at h
    · rename_i s r1 hs
      simp only [Except.ok.injEq, Prod.mk.injEq] at h
      obtain ⟨rfl, rfl⟩ := h
      obtain ⟨body, t, hb, rfl, rfl⟩ := strBody_of_parseString _ _ _ _ hs
      exact ⟨_, Value.string body _ hb, by simp [h1]⟩
    · simp at h
  · split at h
    · simp only [Except.ok.injEq, Prod.mk.injEq] at h
      obtain ⟨rfl, rfl⟩ := h
      exact ⟨_, Value.true, by simp [h2]⟩
    · simp at h
  · split at h
    · simp only [Except.ok.injEq, Prod.mk.injEq] at h
      obtain ⟨rfl, rfl⟩ := h
      exact ⟨_, Value.false, by simp [h3]⟩
    · simp at h
  · split at h
    · simp only [Except.ok.injEq, Prod.mk.injEq] at h
      obtain ⟨rfl, rfl⟩ := h
      exact ⟨_, Value.null, by simp [h4]⟩
    · simp at h
  · split at h
    · rename_i n r1 hn
      simp only [Except.ok.injEq, Prod.mk.injEq] at h
      obtain ⟨rfl, rfl⟩ := h
      obtain ⟨hl, heq⟩ := parseNumber_sound (by simp) hn
      exact ⟨_, Value.number n hl, by rw [h5]; simpa using heq⟩
    · simp at h
  · split at h
    · rename_i n r1 hn
      simp only [Except.ok.injEq, Prod.mk.injEq] at h
      obtain ⟨rfl, rfl⟩ := h
      obtain ⟨hl, heq⟩ := parseNumber_sound (by simp) hn
      exact ⟨_, Value.number n hl, by simpa using heq⟩
    · simp at h

theorem skipWs_split (cs : List Char) : ∃ w, Ws w ∧ cs = w ++ skipWs cs := by
  induction cs with
  | nil => exact ⟨[], ws_nil, rfl⟩
  | cons c cs ih =>
    by_cases hc : isWs c = true
    · obtain ⟨w, hw, hcs⟩ := ih
      refine ⟨c :: w, fun d hd => ?_, by simp only [skipWs, hc, if_true, List.cons_append, ← hcs]⟩
      rcases List.mem_cons.mp hd with rfl | hd
      · exact mem_wsChars_of_isWs hc
      · exact hw d hd
    · exact ⟨[], ws_nil, by simp [skipWs, hc]⟩

theorem ws_append {w1 w2 : List Char} (h1 : Ws w1) (h2 : Ws w2) : Ws (w1 ++ w2) := by
  intro c hc
  rcases List.mem_append.mp hc with h | h
  · exact h1 c h
  · exact h2 c h

theorem joinComma_cons_cons (x y : List Char) (ys : List (List Char)) :
    joinComma (x :: y :: ys) = x ++ ',' :: joinComma (y :: ys) := rfl

theorem joinComma_cons_of_ne (x : List Char) {xs : List (List Char)} (h : xs ≠ []) :
    joinComma (x :: xs) = x ++ ',' :: joinComma xs := by
  cases xs with
  | nil => exact absurd rfl h
  | cons y ys => rfl

theorem joinComma_prepend (w x : List Char) (xs : List (List Char)) :
    joinComma ((w ++ x) :: xs) = w ++ joinComma (x :: xs) := by
  cases xs with
  | nil => rfl
  | cons y ys => simp [joinComma]

/-- Soundness of the reader: whatever it reads in a mode is text of the grammar
for that mode, denoting the value read. -/
theorem parseAux_sound : ∀ (fuel : Nat) (mode : Mode) (cs : List Char) (v : JsValue)
    (rest : List Char), parseAux fuel mode cs = .ok (v, rest) → mode.Accepts cs v rest := by
  intro fuel
  induction fuel with
  | zero => intro mode cs v rest h; simp [parseAux] at h
  | succ n ih =>
    intro mode cs v rest h
    cases mode with
    | value =>
      obtain ⟨w, hw, hcs⟩ := skipWs_split cs
      simp only [parseAux] at h
      split at h
      · simp at h
      · rename_i c r hws
        rw [hws] at hcs
        split_ifs at h with h1 h2
        · obtain ⟨w1, hw1, hr⟩ := skipWs_split r
          split at h
          · simp at h
          · rename_i d r1 hws1
            rw [hws1] at hr
            split_ifs at h with h3
            · simp only [Except.ok.injEq, Prod.mk.injEq] at h
              obtain ⟨rfl, rfl⟩ := h
              exact ⟨w, _, hw, Value.emptyArray w1 hw1, by rw [hcs, hr, h1, h3]; simp⟩
            · obtain ⟨es, hne, hes, hval, rfl, hd⟩ := ih _ _ _ _ h
              obtain ⟨e, tl, rfl⟩ : ∃ e tl, es = e :: tl := by
                cases es with
                | nil => exact absurd rfl hne
                | cons e tl => exact ⟨e, tl, rfl⟩
              have he := hes e (List.mem_cons_self _ _)
              refine ⟨w, _, hw, Value.array (⟨w1 ++ e.before, e.text, e.after, e.value⟩ :: tl)
                (by simp) ?_ ?_, ?_⟩
              · intro x hx
                rcases List.mem_cons.mp hx with rfl | hx
                · exact ⟨ws_append hw1 he.1, he.2⟩
                · exact hes x (List.mem_cons_of_mem _ hx)
              · intro x hx
                rcases List.mem_cons.mp hx with rfl | hx
                · exact hval e (List.mem_cons_self _ _)
                · exact hval x (List.mem_cons_of_mem _ hx)
              · rw [hcs, hr, hd, h1]
                simp only [List.map_cons, Element.chars, List.append_assoc, joinComma_prepend,
                  List.nil_append, List.cons_append]
        · obtain ⟨w1, hw1, hr⟩ := skipWs_split r
          split at h
          · simp at h
          · rename_i d r1 hws1
            rw [hws1] at hr
            split_ifs at h with h3
            · simp only [Except.ok.injEq, Prod.mk.injEq] at h
              obtain ⟨rfl, rfl⟩ := h
              exact ⟨w, _, hw, Value.emptyObject w1 hw1, by rw [hcs, hr, h2, h3]; simp⟩
            · obtain ⟨ms, hne, hms, hval, rfl, hd⟩ := ih _ _ _ _ h
              obtain ⟨m, tl, rfl⟩ : ∃ m tl, ms = m :: tl := by
                cases ms with
                | nil => exact absurd rfl hne
                | cons m tl => exact ⟨m, tl, rfl⟩
              have hm := hms m (List.mem_cons_self _ _)
              refine ⟨w, _, hw, Value.object
                (⟨w1 ++ m.before, m.keyText, m.afterKey, m.beforeValue, m.text, m.after,
                  m.key, m.value⟩ :: tl) (by simp) ?_ ?_, ?_⟩
              · intro x hx
                rcases List.mem_cons.mp hx with rfl | hx
                · exact ⟨ws_append hw1 hm.1, hm.2⟩
                · exact hms x (List.mem_cons_of_mem _ hx)
              · intro x hx
                rcases List.mem_cons.mp hx with rfl | hx
                · exact hval m (List.mem_cons_self _ _)
                · exact hval x (List.mem_cons_of_mem _ hx)
              · rw [hcs, hr, hd, h2]
                simp only [List.map_cons, Member.chars, List.append_assoc, joinComma_prepend,
                  List.nil_append, List.cons_append]
        · obtain ⟨t, ht, hct⟩ := parseScalar_sound h
          exact ⟨w, t, hw, ht, by rw [hcs, hct]⟩
    | elements acc =>
      simp only [parseAux] at h
      split at h
      · simp at h
      · rename_i v1 r hv
        obtain ⟨w, t, hw, ht, hcs⟩ := ih _ _ _ _ hv
        obtain ⟨w2, hw2, hr⟩ := skipWs_split r
        split at h
        · simp at h
        · rename_i d r1 hws1
          rw [hws1] at hr
          split_ifs at h with h1 h2
          · obtain ⟨es, hne, hes, hval, rfl, hd⟩ := ih _ _ _ _ h
            refine ⟨⟨w, t, w2, v1⟩ :: es, by simp, ?_, ?_, by simp, ?_⟩
            · intro x hx
              rcases List.mem_cons.mp hx with rfl | hx
              · exact ⟨hw, hw2⟩
              · exact hes x hx
            · intro x hx
              rcases List.mem_cons.mp hx with rfl | hx
              · exact ht
              · exact hval x hx
            · rw [List.map_cons, joinComma_cons_of_ne _ (by simpa using hne), hcs, hr, hd, h1]
              simp [Element.chars]
          · simp only [Except.ok.injEq, Prod.mk.injEq] at h
            obtain ⟨rfl, rfl⟩ := h
            refine ⟨[⟨w, t, w2, v1⟩], by simp, ?_, ?_, by simp, ?_⟩
            · intro x hx
              rw [List.mem_singleton.mp hx]
              exact ⟨hw, hw2⟩
            · intro x hx
              rw [List.mem_singleton.mp hx]
              exact ht
            · rw [hcs, hr, h2]
              simp [Element.chars, joinComma]
    | members acc =>
      obtain ⟨w, hw, hcs⟩ := skipWs_split cs
      simp only [parseAux] at h
      split at h
      · simp at h
      · rename_i q r hws
        rw [hws] at hcs
        split_ifs at h with hq
        split at h
        · simp at h
        · rename_i key r1 hs
          obtain ⟨body, t0, hb, hkey, hr⟩ := strBody_of_parseString _ _ _ _ hs
          simp only [List.nil_append] at hkey
          subst hkey
          obtain ⟨w2, hw2, hr1⟩ := skipWs_split r1
          split at h
          · simp at h
          · rename_i colon r2 hws2
            rw [hws2] at hr1
            split_ifs at h with hc
            split at h
            · simp at h
            · rename_i v1 r3 hv
              obtain ⟨w3, t, hw3, ht, hr2⟩ := ih _ _ _ _ hv
              obtain ⟨w4, hw4, hr3⟩ := skipWs_split r3
              split at h
              · simp at h
              · rename_i d r4 hws4
                rw [hws4] at hr3
                split_ifs at h with h1 h2
                · obtain ⟨ms, hne, hms, hval, rfl, hd⟩ := ih _ _ _ _ h
                  refine ⟨⟨w, body, w2, w3, t, w4, key, v1⟩ :: ms, by simp, ?_, ?_, by simp, ?_⟩
                  · intro x hx
                    rcases List.mem_cons.mp hx with rfl | hx
                    · exact ⟨hw, hb, hw2, hw3, hw4⟩
                    · exact hms x hx
                  · intro x hx
                    rcases List.mem_cons.mp hx with rfl | hx
                    · exact ht
                    · exact hval x hx
                  · rw [List.map_cons, joinComma_cons_of_ne _ (by simpa using hne), hcs, hq, hr,
                      hr1, hc, hr2, hr3, hd, h1]
                    simp [Member.chars]
                · simp only [Except.ok.injEq, Prod.mk.injEq] at h
                  obtain ⟨rfl, rfl⟩ := h
                  refine ⟨[⟨w, body, w2, w3, t, w4, key, v1⟩], by simp, ?_, ?_, by simp, ?_⟩
                  · intro x hx
                    rw [List.mem_singleton.mp hx]
                    exact ⟨hw, hb, hw2, hw3, hw4⟩
                  · intro x hx
                    rw [List.mem_singleton.mp hx]
                    exact ht
                  · rw [hcs, hq, hr, hr1, hc, hr2, hr3, h2]
                    simp [Member.chars, joinComma]

/-- The texts `JSON.parse` accepts are the texts of the grammar, and the value it
returns is the value the text denotes. -/
theorem JSON.parse_eq_ok_iff (text : String) (v : JsValue) :
    JSON.parse text = .ok v ↔ JsonText text.data v := by
  constructor
  · intro h
    simp only [JSON.parse] at h
    split at h
    · rename_i v1 r hp
      split at h
      · rename_i hr
        simp only [Except.ok.injEq] at h
        subst h
        obtain ⟨w, t, hw, ht, hcs⟩ := parseAux_sound _ _ _ _ _ hp
        obtain ⟨w2, hw2, hr2⟩ := skipWs_split r
        rw [hr, List.append_nil] at hr2
        exact ⟨w, t, r, hw, ht, hr2 ▸ hw2, hcs⟩
      · simp at h
    · simp at h
  · exact JSON.parse_of_jsonText


/-! ## What the handlers do -/

theorem onload_ok {text : String} {v : JsValue} (file : File) (c : Console)
    (h : JSON.parse text = .ok v) :
    onload file text c = (c ++ [.str (utf16 text), v, v], .normal) := by
  simp [onload, console.log, h]

theorem onload_error {text : String} {e : JsError} (file : File) (c : Console)
    (h : JSON.parse text = .error e) :
    onload file text c = (c ++ [.str (utf16 text)], .throw e) := by
  simp [onload, console.log, h]

/-- The entries a fired event appends and the way the handler ends do not depend
on what the console already holds. -/
theorem fire_frame (file : File) (e : ReadEnd) (c : Console) :
    (startRead file).fire e c =
      (c ++ ((startRead file).fire e []).1, ((startRead file).fire e []).2) := by
  cases e with
  | load text =>
    simp only [FileReader.fire, startRead]
    cases h : JSON.parse text with
    | ok v => simp [onload_ok _ _ h]
    | error err => simp [onload_error _ _ h]
  | abort => simp [FileReader.fire, startRead, onabort, console.log]
  | error => simp [FileReader.fire, startRead, onerror, console.log]

theorem droppedAlone_eq (file : File) (e : ReadEnd) :
    droppedAlone file e =
      (((startRead file).fire e []).1, [((startRead file).fire e []).2]) := by
  simp [droppedAlone, runEvents, runTask, onDrop]

/-- A batch of three files whose reads end out of order, the first to end with a
text that does not parse: the later tasks run all the same. -/
theorem runEvents_batch_example :
    runEvents (onDrop [⟨"a.json"⟩, ⟨"b.json"⟩, ⟨"c.json"⟩])
        [(1, .load malformedText), (0, .abort), (2, .load listText)] ([], []) =
      ([.str (utf16 malformedText), .str (utf16 "file reading was aborted"),
        .str (utf16 listText), .arr [.str (utf16 "a"), .str (utf16 "b")],
        .arr [.str (utf16 "a"), .str (utf16 "b")]],
       [.throw .SyntaxError, .normal, .normal]) :=
  rfl

/-! ## Properties of the drop zone -/

/-- C1: when the decoded text is a JSON text whose value is an object with a
text `organism` and a text `version`, the load handler ends normally and the
record it logs after the raw text carries exactly those two values; and when
the members of the object are taken as written, white space and escapes
included, the organism and the version of the record logged are the strings
last written under these two keys. -/
theorem onload_record_carries_organism_version (file : File) (c : Console) :
    (∀ (text : String) (props : List (JsString × JsValue)) (organism version : JsString),
      JsonText text.data (.obj props) →
      getProp (utf16 "organism") props = some (.str organism) →
      getProp (utf16 "version") props = some (.str version) →
      ∃ record, onload file text c =
          (c ++ [.str (utf16 text), .obj record, .obj record], .normal) ∧
        getProp (utf16 "organism") record = some (.str organism) ∧
        getProp (utf16 "version") record = some (.str version)) ∧
    (∀ (text : String) (ms : List Member) (organism version : JsString),
      WrittenObject text.data ms →
      lastWritten (utf16 "organism") ms = some (.str organism) →
      lastWritten (utf16 "version") ms = some (.str version) →
      ∃ record, onload file text c =
          (c ++ [.str (utf16 text), .obj record, .obj record], .normal) ∧
        getProp (utf16 "organism") record = some (.str organism) ∧
        getProp (utf16 "version") record = some (.str version)) :=
  ⟨fun _ props _ _ htext horg hver =>
    ⟨props, onload_ok file c (JSON.parse_of_jsonText htext), horg, hver⟩,
   fun _ ms _ _ htext horg hver =>
    ⟨defineAll ms, onload_ok file c (JSON.parse_of_jsonText (jsonText_of_writtenObject htext)),
      (getProp_defineAll _ ms).trans horg, (getProp_defineAll _ ms).trans hver⟩⟩

theorem onload_record_carries_organism_version_witness :
    (JsonText recordText.data (.obj [(utf16 "organism", .str (utf16 "e_coli")),
      (utf16 "version", .str (utf16 "1.0"))]) ∧
     ∃ record, onload ⟨"a.json"⟩ recordText [] =
        ([] ++ [.str (utf16 recordText), .obj record, .obj record], .normal) ∧
      getProp (utf16 "organism") record = some (.str (utf16 "e_coli")) ∧
      getProp (utf16 "version") record = some (.str (utf16 "1.0"))) ∧
    (∃ ms, WrittenObject escapedText.data ms ∧
      lastWritten (utf16 "organism") ms = some (.str [0x61, 0x0A, 0x62]) ∧
      lastWritten (utf16 "version") ms = some (.str [0x31])) ∧
    (∃ record, onload ⟨"a.json"⟩ escapedText [] =
        ([] ++ [.str (utf16 escapedText), .obj record, .obj record], .normal) ∧
      getProp (utf16 "organism") record = some (.str [0x61, 0x0A, 0x62]) ∧
      getProp (utf16 "version") record = some (.str [0x31])) :=
  ⟨⟨jsonText_of_writtenObject writtenObject_recordText,
    (onload_record_carries_organism_version ⟨"a.json"⟩ []).1 recordText _ _ _
      (jsonText_of_writtenObject writtenObject_recordText) rfl rfl⟩,
   ⟨_, writtenObject_escapedText, rfl, rfl⟩,
   (onload_record_carries_organism_version ⟨"a.json"⟩ []).2 escapedText _ _ _
      writtenObject_escapedText rfl rfl⟩

/-- C2 (counterexample): the text of scenario 2 parses as an object without
`organism`, yet the load handler ends normally having logged the raw text and
the object twice; no entry is the message "missing or invalid organism". -/
theorem onload_versionOnly_no_schema_error :
    JSON.parse versionOnlyText = .ok (.obj [(utf16 "version", .str (utf16 "1.0"))]) ∧
    getProp (utf16 "organism") [(utf16 "version", .str (utf16 "1.0"))] = none ∧
    onload ⟨"a.json"⟩ versionOnlyText [] =
      ([.str (utf16 versionOnlyText), .obj [(utf16 "version", .str (utf16 "1.0"))],
        .obj [(utf16 "version", .str (utf16 "1.0"))]], .normal) ∧
    (onload ⟨"a.json"⟩ versionOnlyText []).1.any
      (JsValue.isText "missing or invalid organism") = false ∧
    (onload ⟨"a.json"⟩ versionOnlyText []).1.any JsValue.isObject = true :=
  ⟨rfl, rfl, rfl, rfl, rfl⟩

/-- C2 (amended): when the decoded text parses as an object whose `organism` or
whose `version` is missing or not text, the load handler checks nothing: it
logs the raw text, then the parsed object twice, and ends normally. -/
theorem onload_object_not_validated (file : File) (text : String) (c : Console)
    (props : List (JsString × JsValue))
    (hparse : JSON.parse text = .ok (.obj props))
    (hbad : (∀ s, getProp (utf16 "organism") props ≠ some (.str s)) ∨
      (∀ s, getProp (utf16 "version") props ≠ some (.str s))) :
    onload file text c = (c ++ [.str (utf16 text), .obj props, .obj props], .normal) :=
  onload_ok file c hparse

theorem onload_object_not_validated_witness :
    JSON.parse versionOnlyText = .ok (.obj [(utf16 "version", .str (utf16 "1.0"))]) ∧
    (∀ s, getProp (utf16 "organism") [(utf16 "version", .str (utf16 "1.0"))] ≠
      some (.str s)) ∧
    onload ⟨"a.json"⟩ versionOnlyText [] =
      ([] ++ [.str (utf16 versionOnlyText), .obj [(utf16 "version", .str (utf16 "1.0"))],
        .obj [(utf16 "version", .str (utf16 "1.0"))]], .normal) :=
  have hmissing : ∀ s, getProp (utf16 "organism")
      [(utf16 "version", JsValue.str (utf16 "1.0"))] ≠ some (.str s) := fun s h => by
    rw [show getProp (utf16 "organism") [(utf16 "version", JsValue.str (utf16 "1.0"))] = none
      from rfl] at h
    cases h
  ⟨rfl, hmissing, onload_object_not_validated ⟨"a.json"⟩ versionOnlyText []
    [(utf16 "version", .str (utf16 "1.0"))] rfl (Or.inl hmissing)⟩

/-- C3 (counterexample): the text of scenario 4 parses as a list, yet the load
handler ends normally having logged the raw text and the list twice; no entry
is the message "expected object". -/
theorem onload_list_no_schema_error :
    JSON.parse listText = .ok (.arr [.str (utf16 "a"), .str (utf16 "b")]) ∧
    onload ⟨"a.json"⟩ listText [] =
      ([.str (utf16 listText), .arr [.str (utf16 "a"), .str (utf16 "b")],
        .arr [.str (utf16 "a"), .str (utf16 "b")]], .normal) ∧
    (onload ⟨"a.json"⟩ listText []).1.any (JsValue.isText "expected object") = false :=
  ⟨rfl, rfl, rfl⟩

/-- C3 (amended): when the decoded text parses as a value that is not an object,
the load handler logs the raw text, then that value twice, and ends normally. -/
theorem onload_non_object_logged (file : File) (text : String) (c : Console) (v : JsValue)
    (hparse : JSON.parse text = .ok v) (hnot : v.isObject = false) :
    onload file text c = (c ++ [.str (utf16 text), v, v], .normal) :=
  onload_ok file c hparse

theorem onload_non_object_logged_witness :
    JSON.parse listText = .ok (.arr [.str (utf16 "a"), .str (utf16 "b")]) ∧
    (JsValue.arr [.str (utf16 "a"), .str (utf16 "b")]).isObject = false ∧
    onload ⟨"a.json"⟩ listText [] =
      ([] ++ [.str (utf16 listText), .arr [.str (utf16 "a"), .str (utf16 "b")],
        .arr [.str (utf16 "a"), .str (utf16 "b")]], .normal) :=
  ⟨rfl, rfl, onload_non_object_logged ⟨"a.json"⟩ listText [] _ rfl rfl⟩

/-- C4 (counterexample): on the text of scenario 3 the load handler logs the raw
text only and ends by raising the `SyntaxError` of `JSON.parse`. -/
theorem onload_malformed_raises :
    JSON.parse malformedText = .error .SyntaxError ∧
    onload ⟨"a.json"⟩ malformedText [] =
      ([.str (utf16 malformedText)], .throw .SyntaxError) ∧
    (onload ⟨"a.json"⟩ malformedText []).2 ≠ .normal :=
  ⟨rfl, rfl, by decide⟩

/-- C4 (amended): when the decoded text does not parse, the load handler logs the
raw text and nothing else, and the `SyntaxError` of `JSON.parse` leaves the
handler uncaught. -/
theorem onload_unparsable_raises (file : File) (text : String) (c : Console)
    (hbad : ∀ v, JSON.parse text ≠ .ok v) :
    onload file text c = (c ++ [.str (utf16 text)], .throw .SyntaxError) := by
  cases h : JSON.parse text with
  | ok v => exact absurd h (hbad v)
  | error e => cases e; exact onload_error file c h

theorem onload_unparsable_raises_witness :
    (∀ v, JSON.parse malformedText ≠ .ok v) ∧
    onload ⟨"a.json"⟩ malformedText [] =
      ([] ++ [.str (utf16 malformedText)], .throw .SyntaxError) :=
  have hbad : ∀ v, JSON.parse malformedText ≠ .ok v := fun v h => by
    rw [show JSON.parse malformedText = .error .SyntaxError from rfl] at h
    cases h
  ⟨hbad, onload_unparsable_raises ⟨"a.json"⟩ malformedText [] hbad⟩

/-- C5 (counterexample): a load of the text of scenario 1 puts three entries on
the console, not one, and the first of them is the raw text. -/
theorem fire_load_record_three_entries :
    ((startRead ⟨"a.json"⟩).fire (.load recordText) []).1 =
      [.str (utf16 recordText),
        .obj [(utf16 "organism", .str (utf16 "e_coli")), (utf16 "version", .str (utf16 "1.0"))],
        .obj [(utf16 "organism", .str (utf16 "e_coli")), (utf16 "version", .str (utf16 "1.0"))]] ∧
    ((startRead ⟨"a.json"⟩).fire (.load recordText) []).1.length = 3 ∧
    ((startRead ⟨"a.json"⟩).fire (.load recordText) []).1.length ≠ 1 :=
  ⟨rfl, rfl, by decide⟩

/-- C5 (amended): however the read of a file ends, the console receives at least
one entry for it: one message when the read is aborted, one when it fails, the
raw text and the parsed value twice when the text parses, and the raw text
alone, followed by an uncaught `SyntaxError`, when it does not. -/
theorem fire_entries (file : File) (c : Console) :
    (∀ e, ∃ x rest k, (startRead file).fire e c = (c ++ x :: rest, k)) ∧
    (startRead file).fire .abort c =
      (c ++ [.str (utf16 "file reading was aborted")], .normal) ∧
    (startRead file).fire .error c =
      (c ++ [.str (utf16 "file reading has failed")], .normal) ∧
    (∀ text v, JSON.parse text = .ok v →
      (startRead file).fire (.load text) c = (c ++ [.str (utf16 text), v, v], .normal)) ∧
    (∀ text, (∀ v, JSON.parse text ≠ .ok v) →
      (startRead file).fire (.load text) c =
        (c ++ [.str (utf16 text)], .throw .SyntaxError)) := by
  refine ⟨?_, rfl, rfl, fun text v h => onload_ok file c h, fun text h => ?_⟩
  · intro e
    cases e with
    | load text =>
      cases h : JSON.parse text with
      | ok v => exact ⟨_, _, _, onload_ok file c h⟩
      | error err => exact ⟨_, _, _, onload_error file c h⟩
    | abort => exact ⟨_, _, _, rfl⟩
    | error => exact ⟨_, _, _, rfl⟩
  · cases h1 : JSON.parse text with
    | ok v => exact absurd h1 (h v)
    | error e => cases e; exact onload_error file c h1

theorem fire_entries_witness :
    JSON.parse recordText = .ok (.obj [(utf16 "organism", .str (utf16 "e_coli")),
      (utf16 "version", .str (utf16 "1.0"))]) ∧
    (∀ v, JSON.parse malformedText ≠ .ok v) ∧
    (startRead ⟨"a.json"⟩).fire (.load recordText) [] =
      ([] ++ [.str (utf16 recordText),
        .obj [(utf16 "organism", .str (utf16 "e_coli")), (utf16 "version", .str (utf16 "1.0"))],
        .obj [(utf16 "organism", .str (utf16 "e_coli")), (utf16 "version", .str (utf16 "1.0"))]],
        .normal) ∧
    (startRead ⟨"a.json"⟩).fire (.load malformedText) [] =
      ([] ++ [.str (utf16 malformedText)], .throw .SyntaxError) :=
  have hbad : ∀ v, JSON.parse malformedText ≠ .ok v := fun v h => by
    rw [show JSON.parse malformedText = .error .SyntaxError from rfl] at h
    cases h
  ⟨rfl, hbad, (fire_entries ⟨"a.json"⟩ []).2.2.2.1 recordText _ rfl,
   (fire_entries ⟨"a.json"⟩ []).2.2.2.2 malformedText hbad⟩

/-- C6 (counterexample): for the file `a.json` the abort and error handlers log
one fixed message each, the same as for the file `b.json`, and the name of
the file does not occur in it. -/
theorem abort_error_entries_lack_file_name :
    (startRead ⟨"a.json"⟩).onabort [] =
      ([.str (utf16 "file reading was aborted")], .normal) ∧
    (startRead ⟨"a.json"⟩).onerror [] =
      ([.str (utf16 "file reading has failed")], .normal) ∧
    ((startRead ⟨"a.json"⟩).onabort []).1.any (JsValue.mentions "a.json") = false ∧
    ((startRead ⟨"a.json"⟩).onerror []).1.any (JsValue.mentions "a.json") = false ∧
    (startRead ⟨"a.json"⟩).onabort [] = (startRead ⟨"b.json"⟩).onabort [] ∧
    (startRead ⟨"a.json"⟩).onerror [] = (startRead ⟨"b.json"⟩).onerror [] :=
  ⟨rfl, rfl, rfl, rfl, rfl, rfl⟩

/-- C6 (amended): when the read of a file is aborted or fails, the handler
installed by `onDrop` logs one message, "file reading was aborted" or "file
reading has failed", whatever the file, and ends normally. -/
theorem abort_error_log_fixed_message (file : File) (c : Console) :
    (startRead file).onabort c =
      (c ++ [.str (utf16 "file reading was aborted")], .normal) ∧
    (startRead file).onerror c =
      (c ++ [.str (utf16 "file reading has failed")], .normal) :=
  ⟨rfl, rfl⟩

/-- C7: when the decoded text parses as an object with a text `organism` and a
text `version`, the record the load handler logs has the keys of the parsed
object, in the same order, and under every key the same value. -/
theorem onload_record_keeps_all_fields (file : File) (text : String) (c : Console)
    (props : List (JsString × JsValue)) (organism version : JsString)
    (hparse : JSON.parse text = .ok (.obj props))
    (horg : getProp (utf16 "organism") props = some (.str organism))
    (hver : getProp (utf16 "version") props = some (.str version)) :
    ∃ record, onload file text c =
        (c ++ [.str (utf16 text), .obj record, .obj record], .normal) ∧
      record.map Prod.fst = props.map Prod.fst ∧
      ∀ key, getProp key record = getProp key props :=
  ⟨props, onload_ok file c hparse, rfl, fun _ => rfl⟩

theorem onload_record_keeps_all_fields_witness :
    JSON.parse partsText = .ok (.obj [(utf16 "organism", .str (utf16 "e_coli")),
      (utf16 "version", .str (utf16 "1.0")),
      (utf16 "parts", .arr [.num ['1'], .num ['2'], .num ['3']])]) ∧
    ∃ record, onload ⟨"a.json"⟩ partsText [] =
        ([] ++ [.str (utf16 partsText), .obj record, .obj record], .normal) ∧
      record.map Prod.fst = [utf16 "organism", utf16 "version", utf16 "parts"] ∧
      ∀ key, getProp key record =
        getProp key [(utf16 "organism", .str (utf16 "e_coli")),
          (utf16 "version", .str (utf16 "1.0")),
          (utf16 "parts", .arr [.num ['1'], .num ['2'], .num ['3']])] :=
  ⟨rfl, onload_record_keeps_all_fields ⟨"a.json"⟩ partsText [] _ (utf16 "e_coli")
    (utf16 "1.0") rfl rfl rfl⟩

/-- C8: what the load handler appends to the console and how it ends are fixed by
the decoded text alone: two runs on the same text, for any files and from any
console contents, append the same entries and end the same way. -/
theorem onload_deterministic (text : String) :
    ∃ entries k, ∀ (file : File) (c : Console), onload file text c = (c ++ entries, k) := by
  cases h : JSON.parse text with
  | ok v => exact ⟨_, _, fun file c => onload_ok file c h⟩
  | error e => exact ⟨_, _, fun file c => onload_error file c h⟩

/-- C9: `onDrop` starts a read for every file of the batch, in order, and whatever
the order in which the reads end and however each ends, every task leaves on
the page exactly what its file leaves when dropped alone; a handler that
raises stops nothing. -/
theorem onDrop_files_independent (files : List File) (arrivals : List (Nat × ReadEnd))
    (page : Page) :
    (onDrop files).map FileReader.reading = files.map some ∧
    runEvents (onDrop files) arrivals page =
      (page.1 ++ (arrivals.map fun ev =>
          match files[ev.1]? with
          | some file => (droppedAlone file ev.2).1
          | none => []).flatten,
       page.2 ++ (arrivals.map fun ev =>
          match files[ev.1]? with
          | some file => (droppedAlone file ev.2).2
          | none => []).flatten) := by
  constructor
  · simp [onDrop, startRead]
  · induction arrivals generalizing page with
    | nil => simp [runEvents]
    | cons ev rest ih =>
      have hstep : runEvents (onDrop files) (ev :: rest) page =
          runEvents (onDrop files) rest (runTask (onDrop files) page ev) := rfl
      rw [hstep, ih]
      cases hf : files[ev.1]? with
      | none => simp [runTask, onDrop, hf]
      | some file =>
        have hr : (onDrop files)[ev.1]? = some (startRead file) := by
          simp [onDrop, hf]
        simp only [runTask, hr, List.map_cons, List.flatten_cons, hf, droppedAlone_eq]
        rw [fire_frame file ev.2 page.1]
        simp [List.append_assoc]

/-- C10: when the decoded text parses, the load handler appends exactly three
entries to the console, the raw text, the parsed value and the parsed value
again, in this order; when it does not parse, it appends the raw text only
and the parse failure is raised. -/
theorem onload_console_entries (file : File) (text : String) (c : Console) :
    (∀ v, JSON.parse text = .ok v →
      onload file text c = (c ++ [.str (utf16 text), v, v], .normal)) ∧
    (∀ e, JSON.parse text = .error e →
      onload file text c = (c ++ [.str (utf16 text)], .throw e)) :=
  ⟨fun _ h => onload_ok file c h, fun _ h => onload_error file c h⟩

theorem onload_console_entries_witness :
    JSON.parse listText = .ok (.arr [.str (utf16 "a"), .str (utf16 "b")]) ∧
    JSON.parse malformedText = .error .SyntaxError ∧
    onload ⟨"a.json"⟩ listText [] =
      ([] ++ [.str (utf16 listText), .arr [.str (utf16 "a"), .str (utf16 "b")],
        .arr [.str (utf16 "a"), .str (utf16 "b")]], .normal) ∧
    onload ⟨"a.json"⟩ malformedText [] =
      ([] ++ [.str (utf16 malformedText)], .throw .SyntaxError) :=
  ⟨rfl, rfl, (onload_console_entries ⟨"a.json"⟩ listText []).1 _ rfl,
   (onload_console_entries ⟨"a.json"⟩ malformedText []).2 _ rfl⟩

end Pegbox
